import Mathlib

set_option linter.unusedVariables false

/-!
Verification of the mini_nrbf MS-NRBF parser/serialiser
(`src/mini_nrbf/__init__.py`).

The embedding is a shallow one:

* A byte stream is a `List Nat` (each entry a byte value `< 256` when the
  list models a real Python `bytes` object).
* A Python `str` is a `List Nat` of Unicode code points (CPython allows
  lone surrogates in a `str`; its strict UTF-8 codec rejects them).
* Reading from a stream is a function `List Nat → Except Err (α × List Nat)`
  returning the value and the unread remainder.
* Writing returns the bytes appended to the underlying buffer.
* Python exceptions are the `Err` error values; an exception aborts the
  whole call, so state built before the exception is discarded.
* The unbounded `while` loop of `DNBinary.parse` is embedded with a fuel
  parameter; `fuel = input length + 1` is always enough because each
  iteration consumes at least the one tag byte (proved below), so the
  `outOfFuel` branch is unreachable from `DNBinary.parse`.
-/

/-- Error kinds, one per Python exception the source can raise:
`eof` = `EOFError`, `varIntTooLong` = the `RuntimeError` in
`PrimitiveStream.string`, `invalidEncoding` = `UnicodeDecodeError`,
`unicodeEncodeError` = `UnicodeEncodeError` from `str.encode`,
`unknownRecordType` = `ValueError` from `RecordTypeEnum(...)`,
`valueOutOfRange` = `ValueError` from `PrimitiveWriter.byte`,
`structError` = `struct.error` from `struct.pack("<i", ...)`,
`typeMismatch` = `TypeError` in `RecordTypeEnum.serialize`.
`outOfFuel` is an artefact of the fuel embedding of the parse loop and is
proved unreachable. -/
inductive Err where
  | eof
  | varIntTooLong
  | invalidEncoding
  | unicodeEncodeError
  | unknownRecordType
  | valueOutOfRange
  | structError
  | typeMismatch
  | outOfFuel
deriving DecidableEq

instance {ε α : Type} [DecidableEq ε] [DecidableEq α] : DecidableEq (Except ε α)
  | .ok a, .ok b =>
    if h : a = b then .isTrue (by rw [h]) else .isFalse (by simp [h])
  | .ok _, .error _ => .isFalse (by simp)
  | .error _, .ok _ => .isFalse (by simp)
  | .error a, .error b =>
    if h : a = b then .isTrue (by rw [h]) else .isFalse (by simp [h])

/-- `class SerializedStreamHeader` (lines 46-53). -/
structure SerializedStreamHeader where
  root_id : Int
  header_id : Int
  major_version : Int
  minor_version : Int
deriving DecidableEq

/-- `class BinaryObjectString` (lines 56-61); `value` is the Python `str`
as a list of Unicode code points. -/
structure BinaryObjectString where
  object_id : Int
  value : List Nat
deriving DecidableEq

/-- `class MessageEnd` (lines 64-65): no fields. -/
structure MessageEnd where
deriving DecidableEq

/-- `RecordItem` union (line 69). -/
inductive RecordItem where
  | ssh (h : SerializedStreamHeader)
  | bos (b : BinaryObjectString)
  | me (e : MessageEnd)
deriving DecidableEq

/-- Is the record a `MessageEnd` (the `isinstance(record, MessageEnd)` test)? -/
def RecordItem.isMe : RecordItem → Bool
  | .me _ => true
  | _ => false

/-- Models CPython's strict UTF-8 encoder (`str.encode("u8")`) on one code
point: 1-4 bytes, raising `UnicodeEncodeError` on lone surrogates
(0xD800-0xDFFF) and on values that are not code points at all. -/
def utf8EncodeChar (c : Nat) : Except Err (List Nat) :=
  if c < 0x80 then .ok [c]
  else if c < 0x800 then .ok [0xC0 + c / 0x40, 0x80 + c % 0x40]
  else if 0xD800 ≤ c ∧ c < 0xE000 then .error .unicodeEncodeError
  else if c < 0x10000 then
    .ok [0xE0 + c / 0x1000, 0x80 + c / 0x40 % 0x40, 0x80 + c % 0x40]
  else if c < 0x110000 then
    .ok [0xF0 + c / 0x40000, 0x80 + c / 0x1000 % 0x40, 0x80 + c / 0x40 % 0x40,
         0x80 + c % 0x40]
  else .error .unicodeEncodeError

/-- CPython's `str.encode("u8")` over a whole string, left to right. -/
def utf8EncodeStr : List Nat → Except Err (List Nat)
  | [] => .ok []
  | c :: rest =>
    match utf8EncodeChar c, utf8EncodeStr rest with
    | .ok ec, .ok erest => .ok (ec ++ erest)
    | .error e, _ => .error e
    | _, .error e => .error e

/-- Is `b` a UTF-8 continuation byte (`0x80`-`0xBF`)? -/
def utf8Cont (b : Nat) : Bool := decide (0x80 ≤ b) && decide (b < 0xC0)

/-- Code point of a 2-byte UTF-8 sequence, `none` if malformed or overlong
(matching CPython's strict decoder). -/
def utf8Char2 (b0 b1 : Nat) : Option Nat :=
  if utf8Cont b1 ∧ 0x80 ≤ (b0 - 0xC0) * 0x40 + (b1 - 0x80) then
    some ((b0 - 0xC0) * 0x40 + (b1 - 0x80))
  else none

/-- Code point of a 3-byte UTF-8 sequence, `none` if malformed, overlong or
a surrogate. -/
def utf8Char3 (b0 b1 b2 : Nat) : Option Nat :=
  if (utf8Cont b1 ∧ utf8Cont b2) ∧
      0x800 ≤ (b0 - 0xE0) * 0x1000 + (b1 - 0x80) * 0x40 + (b2 - 0x80) ∧
      ¬(0xD800 ≤ (b0 - 0xE0) * 0x1000 + (b1 - 0x80) * 0x40 + (b2 - 0x80) ∧
        (b0 - 0xE0) * 0x1000 + (b1 - 0x80) * 0x40 + (b2 - 0x80) < 0xE000) then
    some ((b0 - 0xE0) * 0x1000 + (b1 - 0x80) * 0x40 + (b2 - 0x80))
  else none

/-- Code point of a 4-byte UTF-8 sequence, `none` if malformed, overlong or
beyond 0x10FFFF. -/
def utf8Char4 (b0 b1 b2 b3 : Nat) : Option Nat :=
  if (utf8Cont b1 ∧ utf8Cont b2 ∧ utf8Cont b3) ∧
      0x10000 ≤ (b0 - 0xF0) * 0x40000 + (b1 - 0x80) * 0x1000 + (b2 - 0x80) * 0x40 + (b3 - 0x80) ∧
      (b0 - 0xF0) * 0x40000 + (b1 - 0x80) * 0x1000 + (b2 - 0x80) * 0x40 + (b3 - 0x80) < 0x110000 then
    some ((b0 - 0xF0) * 0x40000 + (b1 - 0x80) * 0x1000 + (b2 - 0x80) * 0x40 + (b3 - 0x80))
  else none

/-- One step of CPython's strict UTF-8 decoder: the first code point of `l`
and the remaining bytes, or `none` if `l` does not start with a valid
sequence. -/
def utf8DecodeChar : List Nat → Option (Nat × List Nat)
  | [] => none
  | b0 :: rest =>
    if b0 < 0x80 then some (b0, rest)
    else if b0 < 0xC0 then none
    else if b0 < 0xE0 then
      match rest with
      | b1 :: rest1 => (utf8Char2 b0 b1).map (fun c => (c, rest1))
      | [] => none
    else if b0 < 0xF0 then
      match rest with
      | b1 :: b2 :: rest1 => (utf8Char3 b0 b1 b2).map (fun c => (c, rest1))
      | _ => none
    else if b0 < 0xF8 then
      match rest with
      | b1 :: b2 :: b3 :: rest1 => (utf8Char4 b0 b1 b2 b3).map (fun c => (c, rest1))
      | _ => none
    else none

/-- The full strict decoder, iterating `utf8DecodeChar` with fuel (each
step consumes at least one byte, so `fuel = list length` is enough). -/
def utf8DecodeF : Nat → List Nat → Option (List Nat)
  | _, [] => some []
  | 0, _ :: _ => none
  | fuel + 1, b0 :: rest =>
    match utf8DecodeChar (b0 :: rest) with
    | none => none
    | some (c, rest1) => (utf8DecodeF fuel rest1).map (fun cs => c :: cs)

/-- Models CPython's strict UTF-8 decoder (`bytes.decode("u8")`): rejects
stray continuation bytes, truncated sequences, overlong encodings,
surrogates and values above 0x10FFFF. -/
def utf8Decode (l : List Nat) : Option (List Nat) := utf8DecodeF l.length l

/-- `PrimitiveStream.read` (lines 86-93): read exactly `size` bytes or raise
`EOFError`.  `io.BytesIO.read(size)` returns `min(size, remaining)` bytes, so
the `len(rdbytes) != size` check fails exactly when fewer than `size` bytes
remain. -/
def PrimitiveStream.read (size : Nat) (input : List Nat) :
    Except Err (List Nat × List Nat) :=
  if size ≤ input.length then .ok (input.take size, input.drop size)
  else .error .eof

/-- `PrimitiveStream.byte` (lines 96-98): `struct.unpack("<B", read(1))[0]`. -/
def PrimitiveStream.byte (input : List Nat) : Except Err (Nat × List Nat) :=
  match PrimitiveStream.read 1 input with
  | .error e => .error e
  | .ok (raw, rest) => .ok (raw.headI, rest)

/-- `PrimitiveStream.int32` (lines 100-102): `struct.unpack("<i", read(4))[0]`,
little-endian two's-complement. -/
def PrimitiveStream.int32 (input : List Nat) : Except Err (Int × List Nat) :=
  match PrimitiveStream.read 4 input with
  | .error e => .error e
  | .ok (raw, rest) =>
    .ok (if raw.getD 0 0 + raw.getD 1 0 * 0x100 + raw.getD 2 0 * 0x10000 +
            raw.getD 3 0 * 0x1000000 < 0x80000000 then
          ((raw.getD 0 0 + raw.getD 1 0 * 0x100 + raw.getD 2 0 * 0x10000 +
            raw.getD 3 0 * 0x1000000 : Nat) : Int)
        else
          ((raw.getD 0 0 + raw.getD 1 0 * 0x100 + raw.getD 2 0 * 0x10000 +
            raw.getD 3 0 * 0x1000000 : Nat) : Int) - 0x100000000,
        rest)

/-- The length-reading loop of `PrimitiveStream.string` (lines 107-120):
`i` is the loop index of `for i in range(5)`, `length` and `shift` the
accumulators.  For byte values `< 256` (all values a `bytes` object can
hold) Python's `byte & ~0x80` equals `byte &&& 0x7F`. -/
def PrimitiveStream.readVarLenAux (i length shift : Nat) (input : List Nat) :
    Except Err (Nat × List Nat) :=
  match input with
  | [] => .error .eof
  | byte :: input1 =>
    if byte &&& 0x80 = 0 then .ok (length + ((byte &&& 0x7F) <<< shift), input1)
    else if i = 4 then .error .varIntTooLong
    else PrimitiveStream.readVarLenAux (i + 1)
        (length + ((byte &&& 0x7F) <<< shift)) (shift + 7) input1

/-- `PrimitiveStream.string` (lines 105-123): variable-length length, then
`length` raw bytes, then strict UTF-8 decoding. -/
def PrimitiveStream.string (input : List Nat) : Except Err (List Nat × List Nat) :=
  match PrimitiveStream.readVarLenAux 0 0 0 input with
  | .error e => .error e
  | .ok (length, input1) =>
    match PrimitiveStream.read length input1 with
    | .error e => .error e
    | .ok (raw, input2) =>
      match utf8Decode raw with
      | some s => .ok (s, input2)
      | none => .error .invalidEncoding

/-- `PrimitiveWriter.byte` (lines 132-138): range check then one byte. -/
def PrimitiveWriter.byte (value : Int) : Except Err (List Nat) :=
  if 0 ≤ value ∧ value ≤ 0xFF then .ok [value.toNat]
  else .error .valueOutOfRange

/-- `PrimitiveWriter.int32` (lines 140-142): `struct.pack("<i", value)` raises
`struct.error` outside the signed 32-bit range, else emits the little-endian
two's-complement bytes. -/
def PrimitiveWriter.int32 (value : Int) : Except Err (List Nat) :=
  if -0x80000000 ≤ value ∧ value < 0x80000000 then
    .ok [(value % 0x100000000).toNat % 0x100,
         (value % 0x100000000).toNat / 0x100 % 0x100,
         (value % 0x100000000).toNat / 0x10000 % 0x100,
         (value % 0x100000000).toNat / 0x1000000 % 0x100]
  else .error .structError

/-- The length-writing loop of `PrimitiveWriter.string` (lines 149-153),
with fuel for the `while length >= 0x80` loop; `length >>> 7` strictly
decreases, so `fuel = length + 1` is always enough (see
`PrimitiveWriter.writeLen7`). -/
def PrimitiveWriter.writeLen7F : Nat → Nat → Except Err (List Nat)
  | 0, _ => .error .outOfFuel
  | fuel + 1, length =>
    if 0x80 ≤ length then
      match PrimitiveWriter.byte (((length &&& 0x7F) ||| 0x80 : Nat) : Int) with
      | .error e => .error e
      | .ok b =>
        match PrimitiveWriter.writeLen7F fuel (length >>> 7) with
        | .error e => .error e
        | .ok bs => .ok (b ++ bs)
    else PrimitiveWriter.byte ((length &&& 0x7F : Nat) : Int)

/-- The variable-length encoder of a length value (loop of lines 149-153). -/
def PrimitiveWriter.writeLen7 (length : Nat) : Except Err (List Nat) :=
  PrimitiveWriter.writeLen7F (length + 1) length

/-- `PrimitiveWriter.string` (lines 144-155): UTF-8 encode, variable-length
length, then the encoded bytes. -/
def PrimitiveWriter.string (value : List Nat) : Except Err (List Nat) :=
  match utf8EncodeStr value with
  | .error e => .error e
  | .ok encoded =>
    match PrimitiveWriter.writeLen7 encoded.length with
    | .error e => .error e
    | .ok pre => .ok (pre ++ encoded)

/-- `RecordTypeEnum` (lines 158-162). -/
inductive RecordTypeEnum where
  | serializedStreamHeader
  | binaryObjectString
  | messageEnd
deriving DecidableEq

/-- The wire value of each enum member. -/
def RecordTypeEnum.value : RecordTypeEnum → Nat
  | .serializedStreamHeader => 0
  | .binaryObjectString => 6
  | .messageEnd => 11

/-- `RecordTypeEnum(b)`: raises `ValueError` (`unknownRecordType`) when `b`
is none of 0, 6, 11. -/
def RecordTypeEnum.ofValue (b : Nat) : Option RecordTypeEnum :=
  if b = 0 then some .serializedStreamHeader
  else if b = 6 then some .binaryObjectString
  else if b = 11 then some .messageEnd
  else none

/-- `RecordTypeEnum.from_record` (lines 164-173). -/
def RecordTypeEnum.from_record : RecordItem → RecordTypeEnum
  | .ssh _ => .serializedStreamHeader
  | .bos _ => .binaryObjectString
  | .me _ => .messageEnd

/-- Python dict assignment `d[k] = v`: overwrites in place (keeping the
original insertion position) or appends a new entry at the end. -/
def dictSet : List (Int × RecordItem) → Int → RecordItem → List (Int × RecordItem)
  | [], k, v => [(k, v)]
  | (k1, v1) :: rest, k, v =>
    if k1 = k then (k, v) :: rest else (k1, v1) :: dictSet rest k v

/-- Python dict lookup `d[k]` as an `Option`. -/
def dictGet : List (Int × RecordItem) → Int → Option RecordItem
  | [], _ => none
  | (k1, v1) :: rest, k => if k1 = k then some v1 else dictGet rest k

/-- The state of a `RecordStream` (lines 225-247): the unread part of the
underlying stream and the `_objects` reference table. -/
structure RecordStreamState where
  input : List Nat
  objects : List (Int × RecordItem)
deriving DecidableEq

/-- The state of a `RecordWriter` (lines 250-270): the bytes written so far
and the `_objects` reference table. -/
structure RecordWriterState where
  out : List Nat
  objects : List (Int × RecordItem)
deriving DecidableEq

/-- `RecordStream` inherits `PrimitiveStream.int32`; the table is untouched. -/
def RecordStream.int32 (s : RecordStreamState) : Except Err (Int × RecordStreamState) :=
  match PrimitiveStream.int32 s.input with
  | .error e => .error e
  | .ok (v, input1) => .ok (v, { s with input := input1 })

/-- `RecordStream` inherits `PrimitiveStream.string`; the table is untouched. -/
def RecordStream.string (s : RecordStreamState) : Except Err (List Nat × RecordStreamState) :=
  match PrimitiveStream.string s.input with
  | .error e => .error e
  | .ok (v, input1) => .ok (v, { s with input := input1 })

/-- `RecordStream.set_object` (lines 235-243). -/
def RecordStream.set_object (s : RecordStreamState) (ref : Int) (obj : RecordItem) :
    RecordStreamState :=
  { s with objects := dictSet s.objects ref obj }

/-- `RecordTypeEnum.parse` (lines 175-192). -/
def RecordTypeEnum.parse (self : RecordTypeEnum) (stream : RecordStreamState) :
    Except Err (RecordItem × RecordStreamState) :=
  match self with
  | .serializedStreamHeader =>
    match RecordStream.int32 stream with
    | .error e => .error e
    | .ok (root_id, s1) =>
      match RecordStream.int32 s1 with
      | .error e => .error e
      | .ok (header_id, s2) =>
        match RecordStream.int32 s2 with
        | .error e => .error e
        | .ok (major_version, s3) =>
          match RecordStream.int32 s3 with
          | .error e => .error e
          | .ok (minor_version, s4) =>
            .ok (.ssh ⟨root_id, header_id, major_version, minor_version⟩, s4)
  | .binaryObjectString =>
    match RecordStream.int32 stream with
    | .error e => .error e
    | .ok (object_id, s1) =>
      match RecordStream.string s1 with
      | .error e => .error e
      | .ok (value, s2) =>
        .ok (.bos ⟨object_id, value⟩,
             RecordStream.set_object s2 object_id (.bos ⟨object_id, value⟩))
  | .messageEnd => .ok (.me ⟨⟩, stream)

/-- `RecordWriter.set_object` (lines 264-266). -/
def RecordWriter.set_object (w : RecordWriterState) (ref : Int) (obj : RecordItem) :
    RecordWriterState :=
  { w with objects := dictSet w.objects ref obj }

/-- `RecordTypeEnum.serialize` (lines 194-222): tag byte, then the fields of
the matching variant; `TypeError` on a variant/tag mismatch. -/
def RecordTypeEnum.serialize (self : RecordTypeEnum) (record : RecordItem)
    (writer : RecordWriterState) : Except Err RecordWriterState :=
  match PrimitiveWriter.byte ((self.value : Nat) : Int) with
  | .error e => .error e
  | .ok tag =>
    match self with
    | .serializedStreamHeader =>
      match record with
      | .ssh h =>
        match PrimitiveWriter.int32 h.root_id with
        | .error e => .error e
        | .ok f1 =>
          match PrimitiveWriter.int32 h.header_id with
          | .error e => .error e
          | .ok f2 =>
            match PrimitiveWriter.int32 h.major_version with
            | .error e => .error e
            | .ok f3 =>
              match PrimitiveWriter.int32 h.minor_version with
              | .error e => .error e
              | .ok f4 =>
                .ok { writer with out := writer.out ++ tag ++ f1 ++ f2 ++ f3 ++ f4 }
      | _ => .error .typeMismatch
    | .binaryObjectString =>
      match record with
      | .bos b =>
        match PrimitiveWriter.int32 b.object_id with
        | .error e => .error e
        | .ok f1 =>
          match PrimitiveWriter.string b.value with
          | .error e => .error e
          | .ok f2 =>
            .ok (RecordWriter.set_object
                  { writer with out := writer.out ++ tag ++ f1 ++ f2 }
                  b.object_id record)
      | _ => .error .typeMismatch
    | .messageEnd =>
      match record with
      | .me _ => .ok { writer with out := writer.out ++ tag }
      | _ => .error .typeMismatch

/-- `RecordStream.record` (lines 230-233): tag byte, enum lookup, dispatch. -/
def RecordStream.record (s : RecordStreamState) :
    Except Err (RecordItem × RecordStreamState) :=
  match PrimitiveStream.byte s.input with
  | .error e => .error e
  | .ok (b, input1) =>
    match RecordTypeEnum.ofValue b with
    | none => .error .unknownRecordType
    | some record_type => record_type.parse { s with input := input1 }

/-- `RecordWriter.record` (lines 259-262). -/
def RecordWriter.record (record : RecordItem) (w : RecordWriterState) :
    Except Err RecordWriterState :=
  (RecordTypeEnum.from_record record).serialize record w

/-- The `while True` loop of `DNBinary.parse` (lines 279-287), with fuel.
Each iteration reads one record, appends it, and stops after a
`MessageEnd`. -/
def DNBinary.parseLoopF : Nat → RecordStreamState → List RecordItem →
    Except Err (List RecordItem × RecordStreamState)
  | 0, _, _ => .error .outOfFuel
  | fuel + 1, s, records =>
    match RecordStream.record s with
    | .error e => .error e
    | .ok (record, s1) =>
      match record with
      | .me _ => .ok (records ++ [record], s1)
      | _ => DNBinary.parseLoopF fuel s1 (records ++ [record])

/-- `DNBinary.parse` (lines 279-287): `input length + 1` fuel always
suffices because every loop iteration consumes at least the tag byte. -/
def DNBinary.parse (s : RecordStreamState) :
    Except Err (List RecordItem × RecordStreamState) :=
  DNBinary.parseLoopF (s.input.length + 1) s []

/-- `parse_bytes` (lines 299-302) keeping the final `RecordStream` state
(observable in the source through `DNBinary.object_definitions`). -/
def parseBytesFull (data : List Nat) :
    Except Err (List RecordItem × RecordStreamState) :=
  DNBinary.parse { input := data, objects := [] }

/-- `parse_bytes` (lines 299-302): just the record list. -/
def parse_bytes (data : List Nat) : Except Err (List RecordItem) :=
  match parseBytesFull data with
  | .error e => .error e
  | .ok (records, _) => .ok records

/-- The `for record in records` loop of `serialize_records` (lines 311-319). -/
def serializeFold : List RecordItem → RecordWriterState → Except Err RecordWriterState
  | [], w => .ok w
  | r :: rest, w =>
    match RecordWriter.record r w with
    | .error e => .error e
    | .ok w1 => serializeFold rest w1

/-- `serialize_records` (lines 311-319) keeping the final `RecordWriter`
state (observable in the source through `RecordWriter.object_definitions`). -/
def serializeRecordsFull (records : List RecordItem) : Except Err RecordWriterState :=
  serializeFold records { out := [], objects := [] }

/-- `serialize_records` (lines 311-319): just the byte buffer. -/
def serialize_records (records : List RecordItem) : Except Err (List Nat) :=
  match serializeRecordsFull records with
  | .error e => .error e
  | .ok w => .ok w.out

/-- Number of bytes the strict UTF-8 encoder emits for one encodable code
point. -/
def utf8CharLen (c : Nat) : Nat :=
  if c < 0x80 then 1 else if c < 0x800 then 2 else if c < 0x10000 then 3 else 4

/-- Byte length of the UTF-8 encoding of a string. -/
def utf8Len : List Nat → Nat
  | [] => 0
  | c :: rest => utf8CharLen c + utf8Len rest

/-- The reference-table update a single record performs (both when parsed
and when serialized): only `BinaryObjectString` registers itself. -/
def objUpd : RecordItem → List (Int × RecordItem) → List (Int × RecordItem)
  | .bos b, os => dictSet os b.object_id (.bos b)
  | _, os => os

/-- The reference-table updates of a whole record sequence, in order. -/
def foldObjUpd (records : List RecordItem) (os : List (Int × RecordItem)) :
    List (Int × RecordItem) :=
  records.foldl (fun os r => objUpd r os) os

/-- Is `c` a Unicode scalar value (encodable by the strict UTF-8 codec)? -/
def scalarOK (c : Nat) : Bool :=
  decide (c < 0x110000) && !(decide (0xD800 ≤ c) && decide (c < 0xE000))

/-- Is `v` representable as a signed 32-bit integer (so that
`struct.pack("<i", v)` succeeds)? -/
def i32OK (v : Int) : Bool :=
  decide (-0x80000000 ≤ v) && decide (v < 0x80000000)

/-- Are all integer fields of the record representable as signed 32-bit
values (claim C1's hypothesis)? -/
def RecordItem.intFieldsI32 : RecordItem → Bool
  | .ssh h => i32OK h.root_id && i32OK h.header_id &&
      i32OK h.major_version && i32OK h.minor_version
  | .bos b => i32OK b.object_id
  | .me _ => true

/-- Is the UTF-8 byte length of the record's string value (if any) small
enough for the 5-group variable-length encoding to round-trip? -/
def RecordItem.strLenOK : RecordItem → Bool
  | .bos b => decide (utf8Len b.value < 0x800000000)
  | _ => true

/-- Are all string code points of the record Unicode scalar values (so the
strict UTF-8 encoder accepts them)? -/
def RecordItem.strScalarOK : RecordItem → Bool
  | .bos b => b.value.all scalarOK
  | _ => true

/-- A record the encoder serializes without error and the decoder then
reproduces exactly. -/
def RecordItem.wf (r : RecordItem) : Bool :=
  r.intFieldsI32 && r.strScalarOK && r.strLenOK

/-- Does the record register the object id `i` (is it a
`BinaryObjectString` with that id)? -/
def writesId (i : Int) : RecordItem → Bool
  | .bos b => b.object_id == i
  | _ => false

/-! ### Arithmetic bridges for the bit operations used by the source -/

theorem and127_eq_mod (b : Nat) : b &&& 0x7F = b % 0x80 := by
  have h := Nat.and_pow_two_sub_one_eq_mod b 7
  norm_num at h
  exact h

theorem or128_eq_add : ∀ x : Nat, x < 0x80 → x ||| 0x80 = x + 0x80 := by decide

theorem and128_of_lt : ∀ x : Nat, x < 0x80 → x &&& 0x80 = 0 := by decide

theorem and128_add_ne : ∀ x : Nat, x < 0x80 → (x + 0x80) &&& 0x80 ≠ 0 := by decide

theorem and127_add128 : ∀ x : Nat, x < 0x80 → (x + 0x80) &&& 0x7F = x := by decide

theorem shiftl_eq_mul_pow128 (x i : Nat) : x <<< (7 * i) = x * 128 ^ i := by
  rw [Nat.shiftLeft_eq, Nat.pow_mul]

/-! ### Facts about `PrimitiveStream.read` -/

theorem read_ok {size : Nat} {input v rest : List Nat}
    (h : PrimitiveStream.read size input = .ok (v, rest)) :
    size ≤ input.length ∧ v = input.take size ∧ rest = input.drop size := by
  unfold PrimitiveStream.read at h
  split at h
  · injection h with h1
    injection h1 with h2 h3
    exact ⟨by assumption, h2.symm, h3.symm⟩
  · cases h

theorem read_append {c : List Nat} (t : List Nat) :
    PrimitiveStream.read c.length (c ++ t) = .ok (c, t) := by
  unfold PrimitiveStream.read
  rw [if_pos (by simp)]
  rw [List.take_left, List.drop_left]

theorem read_append' {c : List Nat} {n : Nat} (t : List Nat) (h : c.length = n) :
    PrimitiveStream.read n (c ++ t) = .ok (c, t) := by
  subst h; exact read_append t

theorem read_short {size : Nat} {input : List Nat} (h : input.length < size) :
    PrimitiveStream.read size input = .error .eof := by
  unfold PrimitiveStream.read
  rw [if_neg (by omega)]

/-! ### Facts about `PrimitiveStream.byte` -/

theorem byte_cons (b : Nat) (t : List Nat) :
    PrimitiveStream.byte (b :: t) = .ok (b, t) := by
  simp [PrimitiveStream.byte, PrimitiveStream.read]

theorem byte_nil : PrimitiveStream.byte [] = .error .eof := by decide

theorem byte_ok {input : List Nat} {b : Nat} {rest : List Nat}
    (h : PrimitiveStream.byte input = .ok (b, rest)) : input = b :: rest := by
  unfold PrimitiveStream.byte at h
  match hr : PrimitiveStream.read 1 input with
  | .error e => rw [hr] at h; cases h
  | .ok (raw, rest1) =>
    rw [hr] at h
    obtain ⟨h1, h2, h3⟩ := read_ok hr
    injection h with h4
    injection h4 with h5 h6
    match input, h1 with
    | x :: t, _ =>
      subst h2 h3 h6
      simp at h5 ⊢
      omega

/-! ### Round-trip of the 32-bit little-endian signed integer codec -/

theorem int32_rt {v : Int} {bytes : List Nat}
    (h : PrimitiveWriter.int32 v = .ok bytes) :
    bytes.length = 4 ∧ (∀ b ∈ bytes, b < 0x100) ∧
      ∀ t, PrimitiveStream.int32 (bytes ++ t) = .ok (v, t) := by
  unfold PrimitiveWriter.int32 at h
  split at h
  case isFalse => cases h
  case isTrue hrange =>
    injection h with h1
    subst h1
    refine ⟨rfl, by simp; omega, ?_⟩
    intro t
    unfold PrimitiveStream.int32
    rw [read_append' t (by rfl)]
    simp only [List.getD_cons_zero, List.getD_cons_succ]
    have h0 : (0 : Int) ≤ v % 0x100000000 := Int.emod_nonneg v (by norm_num)
    have h1 : v % 0x100000000 < 0x100000000 := Int.emod_lt_of_pos v (by norm_num)
    have hcast : (((v % 0x100000000).toNat : Nat) : Int) = v % 0x100000000 :=
      Int.toNat_of_nonneg h0
    set U : Nat := (v % 0x100000000).toNat with hUdef
    have hUlt : U < 0x100000000 := by omega
    have hsum : U % 0x100 + U / 0x100 % 0x100 * 0x100 + U / 0x10000 % 0x100 * 0x10000 +
        U / 0x1000000 % 0x100 * 0x1000000 = U := by omega
    rw [hsum]
    have hval : (if U < 0x80000000 then ((U : Nat) : Int)
        else ((U : Nat) : Int) - 0x100000000) = v := by
      split <;> omega
    rw [hval]

theorem int32_ok_of_range {v : Int}
    (h : -0x80000000 ≤ v ∧ v < 0x80000000) :
    ∃ bytes, PrimitiveWriter.int32 v = .ok bytes := by
  unfold PrimitiveWriter.int32
  rw [if_pos h]
  exact ⟨_, rfl⟩

/-! ### The variable-length (7-bit group) length codec -/

theorem byte_of_nat_ok {x : Nat} (h : x ≤ 0xFF) :
    PrimitiveWriter.byte ((x : Nat) : Int) = .ok [x] := by
  unfold PrimitiveWriter.byte
  rw [if_pos ⟨by exact_mod_cast Nat.zero_le x, by exact_mod_cast h⟩]
  simp

theorem writeLen7F_fuel_irrel : ∀ L f1 f2, L < f1 → L < f2 →
    PrimitiveWriter.writeLen7F f1 L = PrimitiveWriter.writeLen7F f2 L := by
  intro L
  induction L using Nat.strong_induction_on with
  | _ L IH =>
    intro f1 f2 h1 h2
    match f1, h1 with
    | g1 + 1, _ =>
      match f2, h2 with
      | g2 + 1, _ =>
        simp only [PrimitiveWriter.writeLen7F]
        by_cases hge : 0x80 ≤ L
        · rw [if_pos hge, if_pos hge]
          have hlt : L >>> 7 < L := by
            rw [Nat.shiftRight_eq_div_pow]
            exact Nat.div_lt_self (by omega) (by norm_num)
          rw [IH (L >>> 7) hlt g1 g2 (by omega) (by omega)]
        · rw [if_neg hge, if_neg hge]

theorem writeLen7_spec (L : Nat) : ∃ bytes,
    PrimitiveWriter.writeLen7 L = .ok bytes ∧
    1 ≤ bytes.length ∧
    (∀ n, 1 ≤ n → (bytes.length ≤ n ↔ L < 128 ^ n)) ∧
    (∀ b ∈ bytes, b < 0x100) ∧
    ∀ i acc t, i + bytes.length ≤ 5 →
      PrimitiveStream.readVarLenAux i acc (7 * i) (bytes ++ t) =
        .ok (acc + L * 128 ^ i, t) := by
  induction L using Nat.strong_induction_on with
  | _ L IH =>
    by_cases hge : 0x80 ≤ L
    · -- continuation byte, then the encoding of `L >>> 7`
      have hlt : L >>> 7 < L := by
        rw [Nat.shiftRight_eq_div_pow]
        exact Nat.div_lt_self (by omega) (by norm_num)
      obtain ⟨bytes', hok', hlen1', hmin', hbnd', hrt'⟩ := IH (L >>> 7) hlt
      have hmod : L % 128 < 128 := Nat.mod_lt _ (by norm_num)
      have hb : ((L &&& 0x7F) ||| 0x80 : Nat) = L % 128 + 0x80 := by
        rw [and127_eq_mod, or128_eq_add (L % 0x80) hmod]
      refine ⟨(L % 128 + 0x80) :: bytes', ?_, by simp, ?_, ?_, ?_⟩
      · unfold PrimitiveWriter.writeLen7
        show PrimitiveWriter.writeLen7F (L + 1) L = _
        simp only [PrimitiveWriter.writeLen7F]
        rw [if_pos hge, hb, byte_of_nat_ok (by omega)]
        rw [writeLen7F_fuel_irrel (L >>> 7) L (L >>> 7 + 1) hlt (Nat.lt_succ_self _)]
        have hok2 : PrimitiveWriter.writeLen7F (L >>> 7 + 1) (L >>> 7) = .ok bytes' := hok'
        rw [hok2]
        simp
      · -- minimality of the group count
        intro n hn
        match n, hn with
        | 1, _ =>
          simp only [List.length_cons]
          constructor
          · intro hcontra; omega
          · intro hcontra; norm_num at hcontra; omega
        | m + 2, _ =>
          have hiff := hmin' (m + 1) (by omega)
          simp only [List.length_cons]
          have hdiv : L >>> 7 = L / 128 := by
            rw [Nat.shiftRight_eq_div_pow]
          have hpow : (128 : Nat) ^ (m + 2) = 128 ^ (m + 1) * 128 := by ring
          rw [hdiv] at hiff
          constructor
          · intro hle
            have : bytes'.length ≤ m + 1 := by simpa using hle
            have hlt2 := hiff.mp this
            rw [hpow]
            omega
          · intro hlt2
            have : L / 128 < 128 ^ (m + 1) := by
              rw [hpow] at hlt2
              omega
            have := hiff.mpr this
            simpa using this
      · intro b hbmem
        rcases List.mem_cons.mp hbmem with hbeq | hbmem'
        · omega
        · exact hbnd' b hbmem'
      · -- decode round-trip
        intro i acc t hfit
        simp only [List.cons_append]
        simp only [PrimitiveStream.readVarLenAux]
        rw [if_neg (and128_add_ne (L % 128) hmod)]
        rw [if_neg (by simp at hfit; omega : ¬ i = 4)]
        rw [and127_add128 (L % 128) hmod]
        have h7 : 7 * i + 7 = 7 * (i + 1) := by ring
        rw [h7]
        rw [hrt' (i + 1) (acc + (L % 128) <<< (7 * i)) t (by simp at hfit ⊢; omega)]
        rw [shiftl_eq_mul_pow128]
        have hdiv : L >>> 7 = L / 128 := by rw [Nat.shiftRight_eq_div_pow]
        rw [hdiv]
        have key : L % 128 * 128 ^ i + L / 128 * 128 ^ (i + 1) = L * 128 ^ i := by
          have h1 : (128 : Nat) ^ (i + 1) = 128 * 128 ^ i := by ring
          rw [h1]
          have h2 : L % 128 + 128 * (L / 128) = L := by omega
          calc L % 128 * 128 ^ i + L / 128 * (128 * 128 ^ i)
              = (L % 128 + 128 * (L / 128)) * 128 ^ i := by ring
            _ = L * 128 ^ i := by rw [h2]
        congr 2
        omega
    · -- final byte: `L < 0x80`
      push_neg at hge
      have hb : (L &&& 0x7F : Nat) = L := by
        rw [and127_eq_mod]
        omega
      refine ⟨[L], ?_, by simp, ?_, by intro b hb2; simp at hb2; omega, ?_⟩
      · unfold PrimitiveWriter.writeLen7
        show PrimitiveWriter.writeLen7F (L + 1) L = _
        simp only [PrimitiveWriter.writeLen7F]
        rw [if_neg (by omega), hb]
        exact byte_of_nat_ok (by omega)
      · intro n hn
        simp only [List.length_cons, List.length_nil]
        constructor
        · intro _
          calc L < 128 ^ 1 := by norm_num; omega
            _ ≤ 128 ^ n := Nat.pow_le_pow_right (by norm_num) hn
        · intro _; exact hn
      · intro i acc t hfit
        simp only [List.cons_append, List.nil_append]
        simp only [PrimitiveStream.readVarLenAux]
        rw [if_pos (and128_of_lt L hge), hb, shiftl_eq_mul_pow128]

/-! ### Round-trip of the strict UTF-8 codec -/

theorem utf8EncodeChar_rt {c : Nat} {ec : List Nat}
    (h : utf8EncodeChar c = .ok ec) :
    (∀ b ∈ ec, b < 0x100) ∧ ec.length = utf8CharLen c ∧ 1 ≤ ec.length ∧
      ∀ t, utf8DecodeChar (ec ++ t) = some (c, t) := by
  unfold utf8EncodeChar at h
  split_ifs at h with h1 h2 h3 h4 h5
  · -- one byte
    injection h with he
    subst he
    refine ⟨by intro b hb; simp at hb; omega,
      by simp only [List.length_cons, List.length_nil, utf8CharLen]; rw [if_pos h1],
      by simp, ?_⟩
    intro t
    rw [utf8DecodeChar.eq_def]
    dsimp only [List.cons_append, List.nil_append]
    rw [if_pos h1]
  · -- two bytes
    injection h with he
    subst he
    refine ⟨by intro b hb; simp at hb; rcases hb with hb | hb <;> omega,
      by simp only [List.length_cons, List.length_nil, utf8CharLen];
         rw [if_neg h1, if_pos h2], by simp, ?_⟩
    intro t
    rw [utf8DecodeChar.eq_def]
    dsimp only [List.cons_append, List.nil_append]
    rw [if_neg (by omega), if_neg (by omega), if_pos (by omega)]
    unfold utf8Char2
    rw [if_pos ⟨by simp [utf8Cont]; omega, by omega⟩]
    have hv : (0xC0 + c / 0x40 - 0xC0) * 0x40 + (0x80 + c % 0x40 - 0x80) = c := by
      omega
    rw [hv]
    rfl
  · -- three bytes
    injection h with he
    subst he
    refine ⟨by intro b hb; simp at hb; rcases hb with hb | hb | hb <;> omega,
      by simp only [List.length_cons, List.length_nil, utf8CharLen];
         rw [if_neg h1, if_neg h2, if_pos h4], by simp, ?_⟩
    intro t
    rw [utf8DecodeChar.eq_def]
    dsimp only [List.cons_append, List.nil_append]
    rw [if_neg (by omega), if_neg (by omega), if_neg (by omega), if_pos (by omega)]
    unfold utf8Char3
    rw [if_pos ⟨⟨by simp [utf8Cont]; omega, by simp [utf8Cont]; omega⟩,
      by omega, by omega⟩]
    have hv : (0xE0 + c / 0x1000 - 0xE0) * 0x1000 + (0x80 + c / 0x40 % 0x40 - 0x80) * 0x40 +
        (0x80 + c % 0x40 - 0x80) = c := by omega
    rw [hv]
    rfl
  · -- four bytes
    injection h with he
    subst he
    refine ⟨by intro b hb; simp at hb; rcases hb with hb | hb | hb | hb <;> omega,
      by simp only [List.length_cons, List.length_nil, utf8CharLen];
         rw [if_neg h1, if_neg h2, if_neg (by omega)], by simp, ?_⟩
    intro t
    rw [utf8DecodeChar.eq_def]
    dsimp only [List.cons_append, List.nil_append]
    rw [if_neg (by omega), if_neg (by omega), if_neg (by omega), if_neg (by omega),
      if_pos (by omega)]
    unfold utf8Char4
    rw [if_pos ⟨⟨by simp [utf8Cont]; omega, by simp [utf8Cont]; omega,
      by simp [utf8Cont]; omega⟩, by omega, by omega⟩]
    have hv : (0xF0 + c / 0x40000 - 0xF0) * 0x40000 + (0x80 + c / 0x1000 % 0x40 - 0x80) * 0x1000 +
        (0x80 + c / 0x40 % 0x40 - 0x80) * 0x40 + (0x80 + c % 0x40 - 0x80) = c := by omega
    rw [hv]
    rfl

theorem utf8DecodeChar_consumes : ∀ {l : List Nat} {c : Nat} {rest : List Nat},
    utf8DecodeChar l = some (c, rest) → rest.length < l.length := by
  intro l c rest h
  match l with
  | [] => cases h
  | b0 :: r =>
    rw [utf8DecodeChar.eq_def] at h
    dsimp only at h
    split_ifs at h with h1 h2 h3 h4 h5
    · injection h with he
      injection he with he1 he2
      subst he2
      simp
    · match r with
      | [] => cases h
      | b1 :: r1 =>
        dsimp only at h
        cases hc : utf8Char2 b0 b1 <;> rw [hc] at h
        · cases h
        · injection h with he
          injection he with he1 he2
          subst he2
          simp
          omega
    · match r with
      | [] => cases h
      | [b1] => cases h
      | b1 :: b2 :: r1 =>
        dsimp only at h
        cases hc : utf8Char3 b0 b1 b2 <;> rw [hc] at h
        · cases h
        · injection h with he
          injection he with he1 he2
          subst he2
          simp
          omega
    · match r with
      | [] => cases h
      | [b1] => cases h
      | [b1, b2] => cases h
      | b1 :: b2 :: b3 :: r1 =>
        dsimp only at h
        cases hc : utf8Char4 b0 b1 b2 b3 <;> rw [hc] at h
        · cases h
        · injection h with he
          injection he with he1 he2
          subst he2
          simp
          omega

theorem utf8DecodeF_fuel_irrel : ∀ n l f1 f2, List.length l ≤ n →
    List.length l ≤ f1 → List.length l ≤ f2 →
    utf8DecodeF f1 l = utf8DecodeF f2 l := by
  intro n
  induction n with
  | zero =>
    intro l f1 f2 h0 _ _
    match l, h0 with
    | [], _ => cases f1 <;> cases f2 <;> rfl
  | succ n IH =>
    intro l f1 f2 h0 h1 h2
    match l with
    | [] => cases f1 <;> cases f2 <;> rfl
    | b0 :: rest =>
      obtain ⟨g1, rfl⟩ : ∃ g, f1 = g + 1 := ⟨f1 - 1, by simp at h1; omega⟩
      obtain ⟨g2, rfl⟩ : ∃ g, f2 = g + 1 := ⟨f2 - 1, by simp at h2; omega⟩
      simp only [utf8DecodeF]
      match hc : utf8DecodeChar (b0 :: rest) with
      | none => rfl
      | some (c, rest1) =>
        have hlt := utf8DecodeChar_consumes hc
        simp only [List.length_cons] at h0 h1 h2 hlt ⊢
        rw [IH rest1 g1 g2 (by omega) (by omega) (by omega)]

theorem utf8EncodeStr_rt : ∀ {cps enc : List Nat},
    utf8EncodeStr cps = .ok enc →
    (∀ b ∈ enc, b < 0x100) ∧ enc.length = utf8Len cps ∧
      utf8Decode enc = some cps := by
  intro cps
  induction cps with
  | nil =>
    intro enc h
    injection h with he
    subst he
    exact ⟨by simp, rfl, rfl⟩
  | cons c rest IH =>
    intro enc h
    unfold utf8EncodeStr at h
    match hc : utf8EncodeChar c, hr : utf8EncodeStr rest with
    | .error e, .error e2 => rw [hc, hr] at h; simp only at h; exact Except.noConfusion h
    | .error e, .ok erest => rw [hc, hr] at h; simp only at h; exact Except.noConfusion h
    | .ok ec, .error e => rw [hc, hr] at h; simp only at h; exact Except.noConfusion h
    | .ok ec, .ok erest =>
      rw [hc, hr] at h
      simp only at h
      injection h with he
      subst he
      obtain ⟨hbnd, hlen, hone, hdec⟩ := utf8EncodeChar_rt hc
      obtain ⟨hbnd', hlen', hdec'⟩ := IH hr
      refine ⟨?_, ?_, ?_⟩
      · intro b hb
        rcases List.mem_append.mp hb with hb | hb
        · exact hbnd b hb
        · exact hbnd' b hb
      · simp only [List.length_append, utf8Len]
        omega
      · obtain ⟨e0, ec', rfl⟩ : ∃ e0 ec', ec = e0 :: ec' := by
          match ec, hone with
          | e0 :: ec', _ => exact ⟨e0, ec', rfl⟩
        unfold utf8Decode
        simp only [List.cons_append, List.length_cons, List.length_append]
        have hfe : ∃ g, ec'.length + erest.length + 1 = g + 1 :=
          ⟨ec'.length + erest.length, rfl⟩
        obtain ⟨g, hg⟩ := hfe
        rw [hg]
        simp only [utf8DecodeF]
        have hstep := hdec erest
        simp only [List.cons_append] at hstep
        rw [hstep]
        dsimp only
        have hfi : utf8DecodeF g erest = utf8DecodeF erest.length erest :=
          utf8DecodeF_fuel_irrel (g) erest g erest.length (by omega) (by omega)
            (by omega)
        rw [hfi]
        unfold utf8Decode at hdec'
        rw [hdec']
        rfl

theorem utf8EncodeChar_ok_of_scalar {c : Nat} (h : scalarOK c = true) :
    ∃ ec, utf8EncodeChar c = .ok ec := by
  simp only [scalarOK, Bool.and_eq_true, decide_eq_true_eq, Bool.not_eq_true',
    Bool.and_eq_false_iff, decide_eq_false_iff_not] at h
  unfold utf8EncodeChar
  split_ifs with h1 h2 h3 h4 h5
  · exact ⟨_, rfl⟩
  · exact ⟨_, rfl⟩
  · rcases h.2 with hh | hh <;> omega
  · exact ⟨_, rfl⟩
  · exact ⟨_, rfl⟩
  · omega

theorem utf8EncodeStr_ok_of_scalar : ∀ {l : List Nat},
    l.all scalarOK = true → ∃ enc, utf8EncodeStr l = .ok enc := by
  intro l
  induction l with
  | nil => intro _; exact ⟨[], rfl⟩
  | cons c rest IH =>
    intro h
    simp only [List.all_cons, Bool.and_eq_true] at h
    obtain ⟨ec, hec⟩ := utf8EncodeChar_ok_of_scalar h.1
    obtain ⟨enc, henc⟩ := IH h.2
    refine ⟨ec ++ enc, ?_⟩
    unfold utf8EncodeStr
    rw [hec, henc]

/-! ### Round-trip of the length-prefixed string codec -/

theorem string_rt {val bytes : List Nat}
    (h : PrimitiveWriter.string val = .ok bytes)
    (hlen : utf8Len val < 0x800000000) :
    (∀ b ∈ bytes, b < 0x100) ∧ 1 ≤ bytes.length ∧
      ∀ t, PrimitiveStream.string (bytes ++ t) = .ok (val, t) := by
  unfold PrimitiveWriter.string at h
  match he : utf8EncodeStr val with
  | .error e => rw [he] at h; simp only at h; exact Except.noConfusion h
  | .ok encoded =>
    rw [he] at h
    simp only at h
    obtain ⟨pre, hpre, hone, hmin, hbnd, hrt⟩ := writeLen7_spec encoded.length
    rw [hpre] at h
    simp only at h
    injection h with hb
    subst hb
    obtain ⟨hbnd', hlen', hdec'⟩ := utf8EncodeStr_rt he
    have hlen5 : pre.length ≤ 5 := by
      refine (hmin 5 (by norm_num)).mpr ?_
      rw [hlen']
      norm_num
      omega
    refine ⟨?_, ?_, ?_⟩
    · intro b hb
      rcases List.mem_append.mp hb with hb | hb
      · exact hbnd b hb
      · exact hbnd' b hb
    · simp only [List.length_append]
      omega
    · intro t
      unfold PrimitiveStream.string
      rw [List.append_assoc]
      have hrt0 := hrt 0 0 (encoded ++ t) (by omega)
      simp only [Nat.mul_zero, Nat.pow_zero, Nat.mul_one, Nat.zero_add] at hrt0
      rw [hrt0]
      dsimp only
      rw [read_append' t rfl]
      dsimp only
      rw [hdec']

theorem string_ok_of_scalar {val : List Nat} (h : val.all scalarOK = true) :
    ∃ bytes, PrimitiveWriter.string val = .ok bytes := by
  obtain ⟨enc, henc⟩ := utf8EncodeStr_ok_of_scalar h
  obtain ⟨pre, hpre, _⟩ := writeLen7_spec enc.length
  refine ⟨pre ++ enc, ?_⟩
  unfold PrimitiveWriter.string
  rw [henc]
  dsimp only
  rw [hpre]

/-! ### Per-record round-trip: serializing then parsing one record -/

theorem RecordStream_int32_of (os : List (Int × RecordItem)) {input : List Nat}
    {v : Int} {rest : List Nat} (h : PrimitiveStream.int32 input = .ok (v, rest)) :
    RecordStream.int32 { input := input, objects := os } =
      .ok (v, { input := rest, objects := os }) := by
  unfold RecordStream.int32
  rw [h]

theorem RecordStream_string_of (os : List (Int × RecordItem)) {input : List Nat}
    {v : List Nat} {rest : List Nat} (h : PrimitiveStream.string input = .ok (v, rest)) :
    RecordStream.string { input := input, objects := os } =
      .ok (v, { input := rest, objects := os }) := by
  unfold RecordStream.string
  rw [h]

theorem ofValue_0 : RecordTypeEnum.ofValue 0 = some .serializedStreamHeader := rfl

theorem ofValue_6 : RecordTypeEnum.ofValue 6 = some .binaryObjectString := rfl

theorem ofValue_11 : RecordTypeEnum.ofValue 11 = some .messageEnd := rfl

theorem record_rt {r : RecordItem} {w w' : RecordWriterState}
    (hlen : r.strLenOK = true)
    (h : RecordWriter.record r w = .ok w') :
    ∃ d, w'.out = w.out ++ d ∧ 1 ≤ d.length ∧
      w'.objects = objUpd r w.objects ∧
      ∀ t os, RecordStream.record { input := d ++ t, objects := os } =
        .ok (r, { input := t, objects := objUpd r os }) := by
  match r with
  | .me e =>
    cases e
    unfold RecordWriter.record RecordTypeEnum.from_record RecordTypeEnum.serialize at h
    dsimp only [RecordTypeEnum.value] at h
    rw [byte_of_nat_ok (by norm_num : (11 : Nat) ≤ 0xFF)] at h
    dsimp only at h
    injection h with hw
    subst hw
    refine ⟨[11], rfl, by norm_num, rfl, ?_⟩
    intro t os
    unfold RecordStream.record
    simp only [List.cons_append, List.nil_append]
    rw [byte_cons]
    dsimp only
    rw [ofValue_11]
    unfold RecordTypeEnum.parse
    rfl
  | .ssh hd =>
    unfold RecordWriter.record RecordTypeEnum.from_record RecordTypeEnum.serialize at h
    dsimp only [RecordTypeEnum.value] at h
    rw [byte_of_nat_ok (by norm_num : (0 : Nat) ≤ 0xFF)] at h
    dsimp only at h
    match h1 : PrimitiveWriter.int32 hd.root_id with
    | .error e => rw [h1] at h; simp only at h; exact Except.noConfusion h
    | .ok f1 =>
      rw [h1] at h
      simp only at h
      match h2 : PrimitiveWriter.int32 hd.header_id with
      | .error e => rw [h2] at h; simp only at h; exact Except.noConfusion h
      | .ok f2 =>
        rw [h2] at h
        simp only at h
        match h3 : PrimitiveWriter.int32 hd.major_version with
        | .error e => rw [h3] at h; simp only at h; exact Except.noConfusion h
        | .ok f3 =>
          rw [h3] at h
          simp only at h
          match h4 : PrimitiveWriter.int32 hd.minor_version with
          | .error e => rw [h4] at h; simp only at h; exact Except.noConfusion h
          | .ok f4 =>
            rw [h4] at h
            simp only at h
            injection h with hw
            subst hw
            obtain ⟨hl1, _, hr1⟩ := int32_rt h1
            obtain ⟨hl2, _, hr2⟩ := int32_rt h2
            obtain ⟨hl3, _, hr3⟩ := int32_rt h3
            obtain ⟨hl4, _, hr4⟩ := int32_rt h4
            refine ⟨[0] ++ f1 ++ f2 ++ f3 ++ f4, by simp, by simp, rfl, ?_⟩
            intro t os
            unfold RecordStream.record
            simp only [List.cons_append, List.nil_append, List.append_assoc]
            rw [byte_cons]
            dsimp only
            rw [ofValue_0]
            dsimp only
            unfold RecordTypeEnum.parse
            rw [RecordStream_int32_of os (hr1 (f2 ++ (f3 ++ (f4 ++ t))))]
            dsimp only
            rw [RecordStream_int32_of os (hr2 (f3 ++ (f4 ++ t)))]
            dsimp only
            rw [RecordStream_int32_of os (hr3 (f4 ++ t))]
            dsimp only
            rw [RecordStream_int32_of os (hr4 t)]
            dsimp only
            rfl
  | .bos b =>
    unfold RecordWriter.record RecordTypeEnum.from_record RecordTypeEnum.serialize at h
    dsimp only [RecordTypeEnum.value] at h
    rw [byte_of_nat_ok (by norm_num : (6 : Nat) ≤ 0xFF)] at h
    dsimp only at h
    match h1 : PrimitiveWriter.int32 b.object_id with
    | .error e => rw [h1] at h; simp only at h; exact Except.noConfusion h
    | .ok f1 =>
      rw [h1] at h
      simp only at h
      match h2 : PrimitiveWriter.string b.value with
      | .error e => rw [h2] at h; simp only at h; exact Except.noConfusion h
      | .ok f2 =>
        rw [h2] at h
        simp only at h
        injection h with hw
        subst hw
        obtain ⟨hl1, _, hr1⟩ := int32_rt h1
        have hlen' : utf8Len b.value < 0x800000000 := by
          simp only [RecordItem.strLenOK, decide_eq_true_eq] at hlen
          exact hlen
        obtain ⟨_, hone2, hr2⟩ := string_rt h2 hlen'
        refine ⟨[6] ++ f1 ++ f2, by simp [RecordWriter.set_object], by simp, ?_, ?_⟩
        · simp only [RecordWriter.set_object, objUpd]
        · intro t os
          unfold RecordStream.record
          simp only [List.cons_append, List.nil_append, List.append_assoc]
          rw [byte_cons]
          dsimp only
          rw [ofValue_6]
          dsimp only
          unfold RecordTypeEnum.parse
          rw [RecordStream_int32_of os (hr1 (f2 ++ t))]
          dsimp only
          rw [RecordStream_string_of os (hr2 t)]
          dsimp only
          simp only [RecordStream.set_object, objUpd]

/-! ### Encoding succeeds on well-formed records -/

theorem record_ok_of_wf {r : RecordItem} (hwf : r.wf = true) (w : RecordWriterState) :
    ∃ w', RecordWriter.record r w = .ok w' := by
  simp only [RecordItem.wf, Bool.and_eq_true] at hwf
  obtain ⟨⟨hints, hscal⟩, hslen⟩ := hwf
  match r with
  | .me e =>
    cases e
    unfold RecordWriter.record RecordTypeEnum.from_record RecordTypeEnum.serialize
    dsimp only [RecordTypeEnum.value]
    rw [byte_of_nat_ok (by norm_num : (11 : Nat) ≤ 0xFF)]
    dsimp only
    exact ⟨_, rfl⟩
  | .ssh hd =>
    simp only [RecordItem.intFieldsI32, i32OK, Bool.and_eq_true, decide_eq_true_eq] at hints
    unfold RecordWriter.record RecordTypeEnum.from_record RecordTypeEnum.serialize
    dsimp only [RecordTypeEnum.value]
    rw [byte_of_nat_ok (by norm_num : (0 : Nat) ≤ 0xFF)]
    obtain ⟨f1, h1⟩ := int32_ok_of_range ⟨hints.1.1.1.1, hints.1.1.1.2⟩
    obtain ⟨f2, h2⟩ := int32_ok_of_range ⟨hints.1.1.2.1, hints.1.1.2.2⟩
    obtain ⟨f3, h3⟩ := int32_ok_of_range ⟨hints.1.2.1, hints.1.2.2⟩
    obtain ⟨f4, h4⟩ := int32_ok_of_range ⟨hints.2.1, hints.2.2⟩
    rw [h1]
    dsimp only
    rw [h2]
    dsimp only
    rw [h3]
    dsimp only
    rw [h4]
    dsimp only
    exact ⟨_, rfl⟩
  | .bos b =>
    simp only [RecordItem.intFieldsI32, i32OK, Bool.and_eq_true, decide_eq_true_eq] at hints
    simp only [RecordItem.strScalarOK] at hscal
    unfold RecordWriter.record RecordTypeEnum.from_record RecordTypeEnum.serialize
    dsimp only [RecordTypeEnum.value]
    rw [byte_of_nat_ok (by norm_num : (6 : Nat) ≤ 0xFF)]
    obtain ⟨f1, h1⟩ := int32_ok_of_range ⟨hints.1, hints.2⟩
    obtain ⟨f2, h2⟩ := string_ok_of_scalar hscal
    rw [h1]
    dsimp only
    rw [h2]
    dsimp only
    exact ⟨_, rfl⟩

theorem foldObjUpd_nil (os : List (Int × RecordItem)) : foldObjUpd [] os = os := rfl

theorem foldObjUpd_cons (r : RecordItem) (l : List RecordItem)
    (os : List (Int × RecordItem)) :
    foldObjUpd (r :: l) os = foldObjUpd l (objUpd r os) := rfl

theorem foldObjUpd_append (l1 l2 : List RecordItem) (os : List (Int × RecordItem)) :
    foldObjUpd (l1 ++ l2) os = foldObjUpd l2 (foldObjUpd l1 os) := by
  unfold foldObjUpd
  rw [List.foldl_append]

/-! ### The encode/decode loop round-trip -/

theorem serializeFold_rt : ∀ (front : List RecordItem) (w w' : RecordWriterState),
    (∀ r ∈ front, r.isMe = false) →
    (∀ r ∈ front, r.strLenOK = true) →
    serializeFold (front ++ [.me ⟨⟩]) w = .ok w' →
    ∃ d, w'.out = w.out ++ d ∧ 1 ≤ d.length ∧
      w'.objects = foldObjUpd (front ++ [.me ⟨⟩]) w.objects ∧
      ∀ fuel t os acc, d.length + t.length < fuel →
        DNBinary.parseLoopF fuel { input := d ++ t, objects := os } acc =
          .ok (acc ++ (front ++ [.me ⟨⟩]),
            { input := t, objects := foldObjUpd (front ++ [.me ⟨⟩]) os }) := by
  intro front
  induction front with
  | nil =>
    intro w w' _ _ h
    simp only [List.nil_append] at h ⊢
    unfold serializeFold at h
    match hrec : RecordWriter.record (.me ⟨⟩) w with
    | .error e => rw [hrec] at h; simp only at h; exact Except.noConfusion h
    | .ok w1 =>
      rw [hrec] at h
      simp only [serializeFold] at h
      injection h with hw
      subst hw
      obtain ⟨d, hout, hone, hobj, hdec⟩ := record_rt (by rfl) hrec
      refine ⟨d, hout, hone, by simpa [foldObjUpd, objUpd] using hobj, ?_⟩
      intro fuel t os acc hfuel
      obtain ⟨g, rfl⟩ : ∃ g, fuel = g + 1 := ⟨fuel - 1, by omega⟩
      simp only [DNBinary.parseLoopF]
      rw [hdec t os]
      simp only [foldObjUpd, objUpd, List.foldl]
  | cons r front IH =>
    intro w w' hme hlen h
    simp only [List.cons_append] at h ⊢
    unfold serializeFold at h
    match hrec : RecordWriter.record r w with
    | .error e => rw [hrec] at h; simp only at h; exact Except.noConfusion h
    | .ok w1 =>
      rw [hrec] at h
      simp only at h
      obtain ⟨d2, hout2, hone2, hobj2, hdec2⟩ :=
        IH w1 w' (fun x hx => hme x (List.mem_cons_of_mem r hx))
          (fun x hx => hlen x (List.mem_cons_of_mem r hx)) h
      obtain ⟨d1, hout1, hone1, hobj1, hdec1⟩ :=
        record_rt (hlen r (List.mem_cons_self r front)) hrec
      refine ⟨d1 ++ d2, by rw [hout2, hout1, List.append_assoc], by simp; omega, ?_, ?_⟩
      · rw [hobj2, hobj1, foldObjUpd_cons]
      · intro fuel t os acc hfuel
        obtain ⟨g, rfl⟩ : ∃ g, fuel = g + 1 := ⟨fuel - 1, by omega⟩
        simp only [DNBinary.parseLoopF, List.append_assoc]
        rw [hdec1 (d2 ++ t) os]
        have hnotme : r.isMe = false := hme r (List.mem_cons_self r front)
        match r, hnotme with
        | .ssh hd, _ =>
          dsimp only
          rw [hdec2 g t (objUpd (RecordItem.ssh hd) os) (acc ++ [RecordItem.ssh hd])
            (by simp at hfuel ⊢; omega)]
          rw [foldObjUpd_cons]
          simp
        | .bos b, _ =>
          dsimp only
          rw [hdec2 g t (objUpd (RecordItem.bos b) os) (acc ++ [RecordItem.bos b])
            (by simp at hfuel ⊢; omega)]
          rw [foldObjUpd_cons]
          simp

/-! ### Framing: every reader consumes a prefix, is insensitive to what
follows it, and fails with `eof` on any strict truncation of that prefix -/

theorem readVarLenAux_frame : ∀ (input : List Nat) (i acc shift : Nat), i ≤ 4 →
    ∀ {L : Nat} {rest : List Nat},
    PrimitiveStream.readVarLenAux i acc shift input = .ok (L, rest) →
    ∃ c, input = c ++ rest ∧ 1 ≤ c.length ∧ i + c.length ≤ 5 ∧
      (∀ t, PrimitiveStream.readVarLenAux i acc shift (c ++ t) = .ok (L, t)) ∧
      (∀ k, k < c.length →
        PrimitiveStream.readVarLenAux i acc shift (List.take k c) = .error .eof) := by
  intro input
  induction input with
  | nil => intro i acc shift hi L rest h; cases h
  | cons byte input1 IH =>
    intro i acc shift hi L rest h
    rw [PrimitiveStream.readVarLenAux.eq_def] at h
    dsimp only at h
    split_ifs at h with h1 h2
    · -- continuation bit clear: stop here
      injection h with he
      injection he with he1 he2
      subst he1 he2
      refine ⟨[byte], rfl, by simp, by simp; omega, ?_, ?_⟩
      · intro t
        rw [PrimitiveStream.readVarLenAux.eq_def]
        dsimp only [List.cons_append, List.nil_append]
        rw [if_pos h1]
      · intro k hk
        simp only [List.length_cons, List.length_nil] at hk
        have hk0 : k = 0 := by omega
        subst hk0
        rfl
    · -- continue with the next group
      obtain ⟨c1, hsplit, hone, hfit, hext, hshort⟩ := IH _ _ _ (by omega) h
      refine ⟨byte :: c1, by rw [hsplit]; rfl, by simp, by simp at hfit ⊢; omega, ?_, ?_⟩
      · intro t
        rw [PrimitiveStream.readVarLenAux.eq_def]
        dsimp only [List.cons_append]
        rw [if_neg h1, if_neg h2]
        exact hext t
      · intro k hk
        match k with
        | 0 => rfl
        | k1 + 1 =>
          simp only [List.take_succ_cons]
          rw [PrimitiveStream.readVarLenAux.eq_def]
          dsimp only
          rw [if_neg h1, if_neg h2]
          exact hshort k1 (by simp at hk; omega)

theorem int32_frame {input : List Nat} {v : Int} {rest : List Nat}
    (h : PrimitiveStream.int32 input = .ok (v, rest)) :
    ∃ c, input = c ++ rest ∧ c.length = 4 ∧
      (∀ t, PrimitiveStream.int32 (c ++ t) = .ok (v, t)) ∧
      (∀ k, k < c.length → PrimitiveStream.int32 (List.take k c) = .error .eof) := by
  unfold PrimitiveStream.int32 at h
  match hr : PrimitiveStream.read 4 input with
  | .error e => rw [hr] at h; exact Except.noConfusion h
  | .ok (raw, rest1) =>
    rw [hr] at h
    dsimp only at h
    injection h with he
    injection he with he1 he2
    obtain ⟨hle, hraw, hrest⟩ := read_ok hr
    have hlen : raw.length = 4 := by rw [hraw]; simp; omega
    have hin : input = raw ++ rest := by
      rw [← he2, hraw, hrest]
      exact (List.take_append_drop 4 input).symm
    refine ⟨raw, hin, hlen, ?_, ?_⟩
    · intro t
      unfold PrimitiveStream.int32
      rw [read_append' t hlen]
      dsimp only
      rw [he1]
    · intro k hk
      rw [hlen] at hk
      unfold PrimitiveStream.int32
      rw [read_short (by simp [hlen]; omega)]

theorem string_frame {input : List Nat} {v : List Nat} {rest : List Nat}
    (h : PrimitiveStream.string input = .ok (v, rest)) :
    ∃ c, input = c ++ rest ∧ 1 ≤ c.length ∧
      (∀ t, PrimitiveStream.string (c ++ t) = .ok (v, t)) ∧
      (∀ k, k < c.length → PrimitiveStream.string (List.take k c) = .error .eof) := by
  unfold PrimitiveStream.string at h
  match h1 : PrimitiveStream.readVarLenAux 0 0 0 input with
  | .error e => rw [h1] at h; exact Except.noConfusion h
  | .ok (L, input1) =>
    rw [h1] at h
    dsimp only at h
    match h2 : PrimitiveStream.read L input1 with
    | .error e => rw [h2] at h; exact Except.noConfusion h
    | .ok (raw, input2) =>
      rw [h2] at h
      dsimp only at h
      match h3 : utf8Decode raw with
      | none => rw [h3] at h; exact Except.noConfusion h
      | some s =>
        rw [h3] at h
        injection h with he
        injection he with he1 he2
        subst he1
        obtain ⟨c1, hsplit1, hone1, _, hext1, hshort1⟩ :=
          readVarLenAux_frame input 0 0 0 (by norm_num) h1
        obtain ⟨hle2, hraw2, hrest2⟩ := read_ok h2
        have hlenraw : raw.length = L := by rw [hraw2]; simp; omega
        have hin1 : input1 = raw ++ rest := by
          rw [← he2, hraw2, hrest2]
          exact (List.take_append_drop L input1).symm
        refine ⟨c1 ++ raw, by rw [hsplit1, hin1, List.append_assoc], by simp; omega, ?_, ?_⟩
        · intro t
          unfold PrimitiveStream.string
          rw [List.append_assoc, hext1 (raw ++ t)]
          dsimp only
          rw [read_append' t hlenraw]
          dsimp only
          rw [h3]
        · intro k hk
          simp only [List.length_append, hlenraw] at hk
          unfold PrimitiveStream.string
          rw [List.take_append_eq_append_take]
          by_cases hk1 : k < c1.length
          · have hz : k - c1.length = 0 := by omega
            rw [hz]
            simp only [List.take_zero, List.append_nil]
            rw [hshort1 k hk1]
          · rw [List.take_of_length_le (by omega)]
            rw [hext1 (List.take (k - c1.length) raw)]
            dsimp only
            rw [read_short (by simp [hlenraw]; omega)]

theorem RecordStream_int32_ok {s : RecordStreamState} {v : Int} {s1 : RecordStreamState}
    (h : RecordStream.int32 s = .ok (v, s1)) :
    PrimitiveStream.int32 s.input = .ok (v, s1.input) ∧ s1.objects = s.objects := by
  unfold RecordStream.int32 at h
  match hp : PrimitiveStream.int32 s.input with
  | .error e => rw [hp] at h; exact Except.noConfusion h
  | .ok (v2, input1) =>
    rw [hp] at h
    dsimp only at h
    injection h with he
    injection he with he1 he2
    subst he1
    subst he2
    exact ⟨rfl, rfl⟩

theorem RecordStream_string_ok {s : RecordStreamState} {v : List Nat} {s1 : RecordStreamState}
    (h : RecordStream.string s = .ok (v, s1)) :
    PrimitiveStream.string s.input = .ok (v, s1.input) ∧ s1.objects = s.objects := by
  unfold RecordStream.string at h
  match hp : PrimitiveStream.string s.input with
  | .error e => rw [hp] at h; exact Except.noConfusion h
  | .ok (v2, input1) =>
    rw [hp] at h
    dsimp only at h
    injection h with he
    injection he with he1 he2
    subst he1
    subst he2
    exact ⟨rfl, rfl⟩

theorem RecordStream_int32_err (os : List (Int × RecordItem)) {input : List Nat} {e : Err}
    (h : PrimitiveStream.int32 input = .error e) :
    RecordStream.int32 { input := input, objects := os } = .error e := by
  unfold RecordStream.int32
  rw [h]

theorem RecordStream_string_err (os : List (Int × RecordItem)) {input : List Nat} {e : Err}
    (h : PrimitiveStream.string input = .error e) :
    RecordStream.string { input := input, objects := os } = .error e := by
  unfold RecordStream.string
  rw [h]

theorem parse_frame_ssh {stream : RecordStreamState} {r : RecordItem}
    {s' : RecordStreamState}
    (h : RecordTypeEnum.parse .serializedStreamHeader stream = .ok (r, s')) :
    (∃ hd, r = RecordItem.ssh hd) ∧
    ∃ c, stream.input = c ++ s'.input ∧ s'.objects = stream.objects ∧
      (∀ t os, RecordTypeEnum.parse .serializedStreamHeader
          { input := c ++ t, objects := os } = .ok (r, { input := t, objects := os })) ∧
      (∀ k, k < c.length → ∀ os, RecordTypeEnum.parse .serializedStreamHeader
          { input := List.take k c, objects := os } = .error .eof) := by
  unfold RecordTypeEnum.parse at h
  match hs1 : RecordStream.int32 stream with
  | .error e => rw [hs1] at h; exact Except.noConfusion h
  | .ok (v1, s1) =>
    rw [hs1] at h
    dsimp only at h
    match hs2 : RecordStream.int32 s1 with
    | .error e => rw [hs2] at h; exact Except.noConfusion h
    | .ok (v2, s2) =>
      rw [hs2] at h
      dsimp only at h
      match hs3 : RecordStream.int32 s2 with
      | .error e => rw [hs3] at h; exact Except.noConfusion h
      | .ok (v3, s3) =>
        rw [hs3] at h
        dsimp only at h
        match hs4 : RecordStream.int32 s3 with
        | .error e => rw [hs4] at h; exact Except.noConfusion h
        | .ok (v4, s4) =>
          rw [hs4] at h
          dsimp only at h
          injection h with he
          injection he with he1 he2
          subst he1
          subst he2
          obtain ⟨hp1, ho1⟩ := RecordStream_int32_ok hs1
          obtain ⟨hp2, ho2⟩ := RecordStream_int32_ok hs2
          obtain ⟨hp3, ho3⟩ := RecordStream_int32_ok hs3
          obtain ⟨hp4, ho4⟩ := RecordStream_int32_ok hs4
          obtain ⟨c1, hsp1, hl1, hext1, hshort1⟩ := int32_frame hp1
          obtain ⟨c2, hsp2, hl2, hext2, hshort2⟩ := int32_frame hp2
          obtain ⟨c3, hsp3, hl3, hext3, hshort3⟩ := int32_frame hp3
          obtain ⟨c4, hsp4, hl4, hext4, hshort4⟩ := int32_frame hp4
          refine ⟨⟨_, rfl⟩, c1 ++ (c2 ++ (c3 ++ c4)), ?_, by rw [ho4, ho3, ho2, ho1], ?_, ?_⟩
          · rw [hsp1, hsp2, hsp3, hsp4]
            simp [List.append_assoc]
          · intro t os
            unfold RecordTypeEnum.parse
            simp only [List.append_assoc]
            rw [RecordStream_int32_of os (hext1 (c2 ++ (c3 ++ (c4 ++ t))))]
            dsimp only
            rw [RecordStream_int32_of os (hext2 (c3 ++ (c4 ++ t)))]
            dsimp only
            rw [RecordStream_int32_of os (hext3 (c4 ++ t))]
            dsimp only
            rw [RecordStream_int32_of os (hext4 t)]
          · intro k hk os
            simp only [List.length_append, hl1, hl2, hl3, hl4] at hk
            unfold RecordTypeEnum.parse
            rw [List.take_append_eq_append_take]
            by_cases hk1 : k < c1.length
            · have hz : k - c1.length = 0 := by omega
              rw [hz]
              simp only [List.take_zero, List.append_nil]
              rw [RecordStream_int32_err os (hshort1 k hk1)]
            · rw [List.take_of_length_le (by omega)]
              rw [RecordStream_int32_of os (hext1 (List.take (k - c1.length) (c2 ++ (c3 ++ c4))))]
              dsimp only
              rw [List.take_append_eq_append_take]
              by_cases hk2 : k - c1.length < c2.length
              · have hz : k - c1.length - c2.length = 0 := by omega
                rw [hz]
                simp only [List.take_zero, List.append_nil]
                rw [RecordStream_int32_err os (hshort2 _ hk2)]
              · rw [List.take_of_length_le (by omega)]
                rw [RecordStream_int32_of os (hext2 (List.take (k - c1.length - c2.length) (c3 ++ c4)))]
                dsimp only
                rw [List.take_append_eq_append_take]
                by_cases hk3 : k - c1.length - c2.length < c3.length
                · have hz : k - c1.length - c2.length - c3.length = 0 := by omega
                  rw [hz]
                  simp only [List.take_zero, List.append_nil]
                  rw [RecordStream_int32_err os (hshort3 _ hk3)]
                · rw [List.take_of_length_le (by omega)]
                  rw [RecordStream_int32_of os
                    (hext3 (List.take (k - c1.length - c2.length - c3.length) c4))]
                  dsimp only
                  rw [RecordStream_int32_err os
                    (hshort4 _ (by simp only [hl1, hl2, hl3, hl4] at *; omega))]

theorem parse_frame_bos {stream : RecordStreamState} {r : RecordItem}
    {s' : RecordStreamState}
    (h : RecordTypeEnum.parse .binaryObjectString stream = .ok (r, s')) :
    (∃ b1, r = RecordItem.bos b1) ∧
    ∃ c, stream.input = c ++ s'.input ∧ s'.objects = objUpd r stream.objects ∧
      (∀ t os, RecordTypeEnum.parse .binaryObjectString
          { input := c ++ t, objects := os } =
          .ok (r, { input := t, objects := objUpd r os })) ∧
      (∀ k, k < c.length → ∀ os, RecordTypeEnum.parse .binaryObjectString
          { input := List.take k c, objects := os } = .error .eof) := by
  unfold RecordTypeEnum.parse at h
  match hs1 : RecordStream.int32 stream with
  | .error e => rw [hs1] at h; exact Except.noConfusion h
  | .ok (v1, s1) =>
    rw [hs1] at h
    dsimp only at h
    match hs2 : RecordStream.string s1 with
    | .error e => rw [hs2] at h; exact Except.noConfusion h
    | .ok (v2, s2) =>
      rw [hs2] at h
      dsimp only at h
      injection h with he
      injection he with he1 he2
      subst he1
      obtain ⟨hp1, ho1⟩ := RecordStream_int32_ok hs1
      obtain ⟨hp2, ho2⟩ := RecordStream_string_ok hs2
      obtain ⟨c1, hsp1, hl1, hext1, hshort1⟩ := int32_frame hp1
      obtain ⟨c2, hsp2, hone2, hext2, hshort2⟩ := string_frame hp2
      have hs'in : s'.input = s2.input := by rw [← he2]; rfl
      have hs'obj : s'.objects = dictSet s2.objects v1 (.bos ⟨v1, v2⟩) := by
        rw [← he2]
        rfl
      refine ⟨⟨_, rfl⟩, c1 ++ c2, ?_, ?_, ?_, ?_⟩
      · rw [hsp1, hsp2, hs'in, List.append_assoc]
      · rw [hs'obj, ho2, ho1]
        rfl
      · intro t os
        unfold RecordTypeEnum.parse
        simp only [List.append_assoc]
        rw [RecordStream_int32_of os (hext1 (c2 ++ t))]
        dsimp only
        rw [RecordStream_string_of os (hext2 t)]
        dsimp only
        rfl
      · intro k hk os
        simp only [List.length_append] at hk
        unfold RecordTypeEnum.parse
        rw [List.take_append_eq_append_take]
        by_cases hk1 : k < c1.length
        · have hz : k - c1.length = 0 := by omega
          rw [hz]
          simp only [List.take_zero, List.append_nil]
          rw [RecordStream_int32_err os (hshort1 k hk1)]
        · rw [List.take_of_length_le (by omega)]
          rw [RecordStream_int32_of os (hext1 (List.take (k - c1.length) c2))]
          dsimp only
          rw [RecordStream_string_err os (hshort2 _ (by omega))]

theorem parse_frame_me {stream : RecordStreamState} {r : RecordItem}
    {s' : RecordStreamState}
    (h : RecordTypeEnum.parse .messageEnd stream = .ok (r, s')) :
    r = .me ⟨⟩ ∧ s' = stream := by
  unfold RecordTypeEnum.parse at h
  injection h with he
  injection he with he1 he2
  exact ⟨he1.symm, he2.symm⟩

theorem record_nil (os : List (Int × RecordItem)) :
    RecordStream.record { input := [], objects := os } = .error .eof := by
  unfold RecordStream.record
  rw [byte_nil]

theorem record_frame {s : RecordStreamState} {r : RecordItem} {s' : RecordStreamState}
    (h : RecordStream.record s = .ok (r, s')) :
    ∃ c, s.input = c ++ s'.input ∧ 1 ≤ c.length ∧ s'.objects = objUpd r s.objects ∧
      (∀ t os, RecordStream.record { input := c ++ t, objects := os } =
        .ok (r, { input := t, objects := objUpd r os })) ∧
      (∀ k, k < c.length → ∀ os,
        RecordStream.record { input := List.take k c, objects := os } = .error .eof) := by
  unfold RecordStream.record at h
  match hb : PrimitiveStream.byte s.input with
  | .error e => rw [hb] at h; exact Except.noConfusion h
  | .ok (b, input1) =>
    rw [hb] at h
    dsimp only at h
    have hsin : s.input = b :: input1 := byte_ok hb
    match hof : RecordTypeEnum.ofValue b with
    | none => rw [hof] at h; exact Except.noConfusion h
    | some tag =>
      rw [hof] at h
      dsimp only at h
      have hb0 : b = tag.value := by
        unfold RecordTypeEnum.ofValue at hof
        split_ifs at hof with hv0 hv6 hv11
        · injection hof with hv; rw [← hv]; exact hv0
        · injection hof with hv; rw [← hv]; exact hv6
        · injection hof with hv; rw [← hv]; exact hv11
      match tag, hb0, h with
      | .serializedStreamHeader, hb0, h =>
        obtain ⟨⟨hd, rfl⟩, c, hsp, hobj, hext, hshort⟩ := parse_frame_ssh h
        dsimp only [RecordTypeEnum.value] at hb0
        subst hb0
        dsimp only at hsp
        refine ⟨0 :: c, by rw [hsin, hsp]; rfl, by simp, by rw [hobj]; rfl, ?_, ?_⟩
        · intro t os
          unfold RecordStream.record
          dsimp only [List.cons_append]
          rw [byte_cons]
          dsimp only
          rw [ofValue_0]
          dsimp only
          exact hext t os
        · intro k hk os
          match k with
          | 0 => exact record_nil os
          | k1 + 1 =>
            simp only [List.take_succ_cons]
            unfold RecordStream.record
            rw [byte_cons]
            dsimp only
            rw [ofValue_0]
            dsimp only
            exact hshort k1 (by simp at hk; omega) os
      | .binaryObjectString, hb0, h =>
        obtain ⟨⟨b1, rfl⟩, c, hsp, hobj, hext, hshort⟩ := parse_frame_bos h
        dsimp only [RecordTypeEnum.value] at hb0
        subst hb0
        dsimp only at hsp hobj
        refine ⟨6 :: c, by rw [hsin, hsp]; rfl, by simp, by rw [hobj], ?_, ?_⟩
        · intro t os
          unfold RecordStream.record
          dsimp only [List.cons_append]
          rw [byte_cons]
          dsimp only
          rw [ofValue_6]
          dsimp only
          exact hext t os
        · intro k hk os
          match k with
          | 0 => exact record_nil os
          | k1 + 1 =>
            simp only [List.take_succ_cons]
            unfold RecordStream.record
            rw [byte_cons]
            dsimp only
            rw [ofValue_6]
            dsimp only
            exact hshort k1 (by simp at hk; omega) os
      | .messageEnd, hb0, h =>
        obtain ⟨hr, hs'⟩ := parse_frame_me h
        subst hr
        subst hs'
        dsimp only [RecordTypeEnum.value] at hb0
        subst hb0
        refine ⟨[11], by rw [hsin]; rfl, by simp, rfl, ?_, ?_⟩
        · intro t os
          unfold RecordStream.record
          dsimp only [List.cons_append, List.nil_append]
          rw [byte_cons]
          dsimp only
          rw [ofValue_11]
          dsimp only
          unfold RecordTypeEnum.parse
          rfl
        · intro k hk os
          simp only [List.length_cons, List.length_nil] at hk
          have hk0 : k = 0 := by omega
          subst hk0
          exact record_nil os

/-! ### Which errors each reader can raise -/

theorem read_err {size : Nat} {input : List Nat} {e : Err}
    (h : PrimitiveStream.read size input = .error e) : e = .eof := by
  unfold PrimitiveStream.read at h
  split at h
  · exact Except.noConfusion h
  · injection h with he
    exact he.symm

theorem byte_err {input : List Nat} {e : Err}
    (h : PrimitiveStream.byte input = .error e) : e = .eof := by
  unfold PrimitiveStream.byte at h
  match hr : PrimitiveStream.read 1 input with
  | .error e2 =>
    rw [hr] at h
    injection h with he
    rw [← he]
    exact read_err hr
  | .ok (raw, rest) => rw [hr] at h; exact Except.noConfusion h

theorem int32_err {input : List Nat} {e : Err}
    (h : PrimitiveStream.int32 input = .error e) : e = .eof := by
  unfold PrimitiveStream.int32 at h
  match hr : PrimitiveStream.read 4 input with
  | .error e2 =>
    rw [hr] at h
    injection h with he
    rw [← he]
    exact read_err hr
  | .ok (raw, rest) => rw [hr] at h; exact Except.noConfusion h

theorem readVarLenAux_err : ∀ {input : List Nat} {i acc shift : Nat} {e : Err},
    PrimitiveStream.readVarLenAux i acc shift input = .error e →
    e = .eof ∨ e = .varIntTooLong := by
  intro input
  induction input with
  | nil =>
    intro i acc shift e h
    rw [PrimitiveStream.readVarLenAux.eq_def] at h
    injection h with he
    exact Or.inl he.symm
  | cons byte input1 IH =>
    intro i acc shift e h
    rw [PrimitiveStream.readVarLenAux.eq_def] at h
    dsimp only at h
    split_ifs at h with h1 h2
    · injection h with he
      exact Or.inr he.symm
    · exact IH h

theorem string_err {input : List Nat} {e : Err}
    (h : PrimitiveStream.string input = .error e) :
    e = .eof ∨ e = .varIntTooLong ∨ e = .invalidEncoding := by
  unfold PrimitiveStream.string at h
  match h1 : PrimitiveStream.readVarLenAux 0 0 0 input with
  | .error e2 =>
    rw [h1] at h
    injection h with he
    subst he
    rcases readVarLenAux_err h1 with he | he
    · exact Or.inl he
    · exact Or.inr (Or.inl he)
  | .ok (L, input1) =>
    rw [h1] at h
    dsimp only at h
    match h2 : PrimitiveStream.read L input1 with
    | .error e2 =>
      rw [h2] at h
      injection h with he
      subst he
      exact Or.inl (read_err h2)
    | .ok (raw, input2) =>
      rw [h2] at h
      dsimp only at h
      match h3 : utf8Decode raw with
      | some s => rw [h3] at h; exact Except.noConfusion h
      | none =>
        rw [h3] at h
        injection h with he
        exact Or.inr (Or.inr he.symm)

theorem record_err {s : RecordStreamState} {e : Err}
    (h : RecordStream.record s = .error e) :
    e = .eof ∨ e = .unknownRecordType ∨ e = .varIntTooLong ∨ e = .invalidEncoding := by
  unfold RecordStream.record at h
  match hb : PrimitiveStream.byte s.input with
  | .error e2 =>
    rw [hb] at h
    injection h with he
    subst he
    exact Or.inl (byte_err hb)
  | .ok (b, input1) =>
    rw [hb] at h
    dsimp only at h
    match hof : RecordTypeEnum.ofValue b with
    | none =>
      rw [hof] at h
      injection h with he
      exact Or.inr (Or.inl he.symm)
    | some tag =>
      rw [hof] at h
      dsimp only at h
      match tag, h with
      | .serializedStreamHeader, h =>
        unfold RecordTypeEnum.parse at h
        match hs1 : RecordStream.int32 { s with input := input1 } with
        | .error e2 =>
          rw [hs1] at h
          injection h with he
          subst he
          unfold RecordStream.int32 at hs1
          match hp : PrimitiveStream.int32 input1 with
          | .error e3 =>
            rw [hp] at hs1
            injection hs1 with he2
            subst he2
            exact Or.inl (int32_err hp)
          | .ok x => rw [hp] at hs1; dsimp only at hs1; exact Except.noConfusion hs1
        | .ok (v1, s1) =>
          rw [hs1] at h
          dsimp only at h
          match hs2 : RecordStream.int32 s1 with
          | .error e2 =>
            rw [hs2] at h
            injection h with he
            subst he
            unfold RecordStream.int32 at hs2
            match hp : PrimitiveStream.int32 s1.input with
            | .error e3 =>
              rw [hp] at hs2
              injection hs2 with he2
              subst he2
              exact Or.inl (int32_err hp)
            | .ok x => rw [hp] at hs2; dsimp only at hs2; exact Except.noConfusion hs2
          | .ok (v2, s2) =>
            rw [hs2] at h
            dsimp only at h
            match hs3 : RecordStream.int32 s2 with
            | .error e2 =>
              rw [hs3] at h
              injection h with he
              subst he
              unfold RecordStream.int32 at hs3
              match hp : PrimitiveStream.int32 s2.input with
              | .error e3 =>
                rw [hp] at hs3
                injection hs3 with he2
                subst he2
                exact Or.inl (int32_err hp)
              | .ok x => rw [hp] at hs3; dsimp only at hs3; exact Except.noConfusion hs3
            | .ok (v3, s3) =>
              rw [hs3] at h
              dsimp only at h
              match hs4 : RecordStream.int32 s3 with
              | .error e2 =>
                rw [hs4] at h
                injection h with he
                subst he
                unfold RecordStream.int32 at hs4
                match hp : PrimitiveStream.int32 s3.input with
                | .error e3 =>
                  rw [hp] at hs4
                  injection hs4 with he2
                  subst he2
                  exact Or.inl (int32_err hp)
                | .ok x => rw [hp] at hs4; dsimp only at hs4; exact Except.noConfusion hs4
              | .ok (v4, s4) =>
                rw [hs4] at h
                dsimp only at h
                exact Except.noConfusion h
      | .binaryObjectString, h =>
        unfold RecordTypeEnum.parse at h
        match hs1 : RecordStream.int32 { s with input := input1 } with
        | .error e2 =>
          rw [hs1] at h
          injection h with he
          subst he
          unfold RecordStream.int32 at hs1
          match hp : PrimitiveStream.int32 input1 with
          | .error e3 =>
            rw [hp] at hs1
            injection hs1 with he2
            subst he2
            exact Or.inl (int32_err hp)
          | .ok x => rw [hp] at hs1; dsimp only at hs1; exact Except.noConfusion hs1
        | .ok (v1, s1) =>
          rw [hs1] at h
          dsimp only at h
          match hs2 : RecordStream.string s1 with
          | .error e2 =>
            rw [hs2] at h
            injection h with he
            subst he
            unfold RecordStream.string at hs2
            match hp : PrimitiveStream.string s1.input with
            | .error e3 =>
              rw [hp] at hs2
              injection hs2 with he2
              subst he2
              rcases string_err hp with he | he | he
              · exact Or.inl he
              · exact Or.inr (Or.inr (Or.inl he))
              · exact Or.inr (Or.inr (Or.inr he))
            | .ok x => rw [hp] at hs2; dsimp only at hs2; exact Except.noConfusion hs2
          | .ok (v2, s2) =>
            rw [hs2] at h
            dsimp only at h
            exact Except.noConfusion h
      | .messageEnd, h =>
        unfold RecordTypeEnum.parse at h
        exact Except.noConfusion h

theorem record_ne_outOfFuel {s : RecordStreamState} :
    RecordStream.record s ≠ .error .outOfFuel := by
  intro h
  rcases record_err h with he | he | he | he <;> exact Err.noConfusion he

/-! ### The parse loop: termination, consumption, truncation -/

theorem record_consumes {s : RecordStreamState} {r : RecordItem} {s' : RecordStreamState}
    (h : RecordStream.record s = .ok (r, s')) : s'.input.length < s.input.length := by
  obtain ⟨c, hsp, hone, _, _, _⟩ := record_frame h
  rw [hsp]
  simp
  omega

theorem parseLoopF_complete : ∀ (fuel : Nat) (s : RecordStreamState) (acc : List RecordItem),
    s.input.length < fuel →
    (DNBinary.parseLoopF fuel s acc ≠ .error .outOfFuel) ∧
    (∀ recs s', DNBinary.parseLoopF fuel s acc = .ok (recs, s') →
      recs.length + s'.input.length ≤ acc.length + s.input.length) := by
  intro fuel
  induction fuel with
  | zero => intro s acc h; omega
  | succ g IH =>
    intro s acc hlen
    simp only [DNBinary.parseLoopF]
    match hrec : RecordStream.record s with
    | .error e =>
      constructor
      · intro hcontra
        injection hcontra with he
        subst he
        exact record_ne_outOfFuel hrec
      · intro recs s' hcontra
        exact Except.noConfusion hcontra
    | .ok (record, s1) =>
      have hcons := record_consumes hrec
      match record with
      | .me e0 =>
        constructor
        · intro hcontra
          exact Except.noConfusion hcontra
        · intro recs s' hok
          injection hok with he
          injection he with he1 he2
          subst he1
          subst he2
          simp
          omega
      | .ssh hd =>
        obtain ⟨h1, h2⟩ := IH s1 (acc ++ [.ssh hd]) (by omega)
        refine ⟨h1, ?_⟩
        intro recs s' hok
        have := h2 recs s' hok
        simp at this
        omega
      | .bos b =>
        obtain ⟨h1, h2⟩ := IH s1 (acc ++ [.bos b]) (by omega)
        refine ⟨h1, ?_⟩
        intro recs s' hok
        have := h2 recs s' hok
        simp at this
        omega

theorem parseLoopF_trunc : ∀ (n : Nat) (bs : List Nat) (os : List (Int × RecordItem))
    (acc recs : List RecordItem) (s' : RecordStreamState) (fuel : Nat),
    bs.length ≤ n → bs.length < fuel →
    DNBinary.parseLoopF fuel { input := bs, objects := os } acc = .ok (recs, s') →
    s'.input = [] →
    ∀ k, k < bs.length → ∀ fuel2 os2 acc2, k < fuel2 →
      DNBinary.parseLoopF fuel2 { input := List.take k bs, objects := os2 } acc2 =
        .error .eof := by
  intro n
  induction n with
  | zero =>
    intro bs os acc recs s' fuel h0 _ _ _ k hk
    omega
  | succ n IH =>
    intro bs os acc recs s' fuel h0 hfuel h hdone k hk fuel2 os2 acc2 hk2
    obtain ⟨g, rfl⟩ : ∃ g, fuel = g + 1 := ⟨fuel - 1, by omega⟩
    obtain ⟨g2, rfl⟩ : ∃ g, fuel2 = g + 1 := ⟨fuel2 - 1, by omega⟩
    simp only [DNBinary.parseLoopF] at h
    match hrec : RecordStream.record { input := bs, objects := os } with
    | .error e => rw [hrec] at h; exact Except.noConfusion h
    | .ok (record, s1) =>
      rw [hrec] at h
      dsimp only at h
      obtain ⟨c, hsp, hone, hobj, hext, hshort⟩ := record_frame hrec
      dsimp only at hsp
      match record, h with
      | .me e0, h =>
        dsimp only at h
        injection h with he
        injection he with he1 he2
        subst he2
        rw [hdone] at hsp
        simp only [List.append_nil] at hsp
        subst hsp
        simp only [DNBinary.parseLoopF]
        rw [hshort k hk os2]
      | .ssh hd, h =>
        dsimp only at h
        by_cases hkc : k < c.length
        · simp only [DNBinary.parseLoopF]
          rw [hsp, List.take_append_eq_append_take]
          have hz : k - c.length = 0 := by omega
          rw [hz]
          simp only [List.take_zero, List.append_nil]
          rw [hshort k hkc os2]
        · have hks : k - c.length < s1.input.length := by
            rw [hsp] at hk
            simp at hk
            omega
          simp only [DNBinary.parseLoopF]
          rw [hsp, List.take_append_eq_append_take,
            List.take_of_length_le (by omega)]
          rw [hext (List.take (k - c.length) s1.input) os2]
          dsimp only
          have hs1eta : s1 = { input := s1.input, objects := s1.objects } := rfl
          rw [hs1eta] at h
          exact IH s1.input s1.objects (acc ++ [.ssh hd]) recs s' g
            (by rw [hsp] at h0; simp at h0; omega)
            (by rw [hsp] at hfuel; simp at hfuel; omega)
            h hdone (k - c.length) hks g2 (objUpd (.ssh hd) os2) (acc2 ++ [.ssh hd])
            (by omega)
      | .bos b, h =>
        dsimp only at h
        by_cases hkc : k < c.length
        · simp only [DNBinary.parseLoopF]
          rw [hsp, List.take_append_eq_append_take]
          have hz : k - c.length = 0 := by omega
          rw [hz]
          simp only [List.take_zero, List.append_nil]
          rw [hshort k hkc os2]
        · have hks : k - c.length < s1.input.length := by
            rw [hsp] at hk
            simp at hk
            omega
          simp only [DNBinary.parseLoopF]
          rw [hsp, List.take_append_eq_append_take,
            List.take_of_length_le (by omega)]
          rw [hext (List.take (k - c.length) s1.input) os2]
          dsimp only
          have hs1eta : s1 = { input := s1.input, objects := s1.objects } := rfl
          rw [hs1eta] at h
          exact IH s1.input s1.objects (acc ++ [.bos b]) recs s' g
            (by rw [hsp] at h0; simp at h0; omega)
            (by rw [hsp] at hfuel; simp at hfuel; omega)
            h hdone (k - c.length) hks g2 (objUpd (.bos b) os2) (acc2 ++ [.bos b])
            (by omega)

/-! ### Reference-table (Python dict) lemmas -/

theorem dictGet_set_self : ∀ (d : List (Int × RecordItem)) (k : Int) (v : RecordItem),
    dictGet (dictSet d k v) k = some v := by
  intro d k v
  induction d with
  | nil => simp [dictSet, dictGet]
  | cons p rest IH =>
    match p with
    | (k1, v1) =>
      unfold dictSet
      by_cases hk : k1 = k
      · rw [if_pos hk]
        simp [dictGet]
      · rw [if_neg hk]
        unfold dictGet
        rw [if_neg hk]
        exact IH

theorem dictGet_set_ne : ∀ (d : List (Int × RecordItem)) {k1 k : Int} (v : RecordItem),
    k1 ≠ k → dictGet (dictSet d k1 v) k = dictGet d k := by
  intro d
  induction d with
  | nil =>
    intro k1 k v h
    simp [dictSet, dictGet, h]
  | cons p rest IH =>
    intro k1 k v h
    match p with
    | (k2, v2) =>
      unfold dictSet
      by_cases hk : k2 = k1
      · rw [if_pos hk]
        unfold dictGet
        rw [if_neg h, if_neg (by rw [hk]; exact h)]
      · rw [if_neg hk]
        unfold dictGet
        by_cases hk2 : k2 = k
        · rw [if_pos hk2, if_pos hk2]
        · rw [if_neg hk2, if_neg hk2]
          exact IH v h

theorem foldObjUpd_no_write {i : Int} : ∀ (l : List RecordItem)
    (os : List (Int × RecordItem)),
    (∀ r ∈ l, writesId i r = false) →
    dictGet (foldObjUpd l os) i = dictGet os i := by
  intro l
  induction l with
  | nil => intro os _; rfl
  | cons r rest IH =>
    intro os hw
    rw [foldObjUpd_cons]
    rw [IH _ (fun x hx => hw x (List.mem_cons_of_mem r hx))]
    match r with
    | .ssh hd => rfl
    | .me e => rfl
    | .bos b =>
      have hne : b.object_id ≠ i := by
        have := hw (.bos b) (List.mem_cons_self _ _)
        simp only [writesId, beq_eq_false_iff_ne, ne_eq] at this
        exact this
      exact dictGet_set_ne os (.bos b) hne

/-! ### Which errors the writers can raise -/

theorem utf8EncodeChar_err {c : Nat} {e : Err}
    (h : utf8EncodeChar c = .error e) : e = .unicodeEncodeError := by
  unfold utf8EncodeChar at h
  split_ifs at h <;> injection h with he <;> exact he.symm

theorem utf8EncodeStr_err : ∀ {l : List Nat} {e : Err},
    utf8EncodeStr l = .error e → e = .unicodeEncodeError := by
  intro l
  induction l with
  | nil => intro e h; exact Except.noConfusion h
  | cons c rest IH =>
    intro e h
    unfold utf8EncodeStr at h
    match hc : utf8EncodeChar c, hr : utf8EncodeStr rest with
    | .error e2, _ =>
      rw [hc] at h
      simp only at h
      injection h with he
      subst he
      exact utf8EncodeChar_err hc
    | .ok ec, .error e2 =>
      rw [hc, hr] at h
      simp only at h
      injection h with he
      subst he
      exact IH hr
    | .ok ec, .ok erest =>
      rw [hc, hr] at h
      simp only at h
      exact Except.noConfusion h

theorem pw_int32_err {v : Int} {e : Err}
    (h : PrimitiveWriter.int32 v = .error e) : e = .structError := by
  unfold PrimitiveWriter.int32 at h
  split at h
  · exact Except.noConfusion h
  · injection h with he
    exact he.symm

theorem pw_string_err {v : List Nat} {e : Err}
    (h : PrimitiveWriter.string v = .error e) : e = .unicodeEncodeError := by
  unfold PrimitiveWriter.string at h
  match hc : utf8EncodeStr v with
  | .error e2 =>
    rw [hc] at h
    injection h with he
    subst he
    exact utf8EncodeStr_err hc
  | .ok encoded =>
    rw [hc] at h
    dsimp only at h
    obtain ⟨pre, hpre, _⟩ := writeLen7_spec encoded.length
    rw [hpre] at h
    dsimp only at h
    exact Except.noConfusion h

theorem rw_record_err {r : RecordItem} {w : RecordWriterState} {e : Err}
    (h : RecordWriter.record r w = .error e) :
    e = .structError ∨ e = .unicodeEncodeError := by
  match r with
  | .me e0 =>
    cases e0
    unfold RecordWriter.record RecordTypeEnum.from_record RecordTypeEnum.serialize at h
    dsimp only [RecordTypeEnum.value] at h
    rw [byte_of_nat_ok (by norm_num : (11 : Nat) ≤ 0xFF)] at h
    dsimp only at h
    exact Except.noConfusion h
  | .ssh hd =>
    unfold RecordWriter.record RecordTypeEnum.from_record RecordTypeEnum.serialize at h
    dsimp only [RecordTypeEnum.value] at h
    rw [byte_of_nat_ok (by norm_num : (0 : Nat) ≤ 0xFF)] at h
    dsimp only at h
    match h1 : PrimitiveWriter.int32 hd.root_id with
    | .error e2 =>
      rw [h1] at h
      simp only at h
      injection h with he
      subst he
      exact Or.inl (pw_int32_err h1)
    | .ok f1 =>
      rw [h1] at h
      simp only at h
      match h2 : PrimitiveWriter.int32 hd.header_id with
      | .error e2 =>
        rw [h2] at h
        simp only at h
        injection h with he
        subst he
        exact Or.inl (pw_int32_err h2)
      | .ok f2 =>
        rw [h2] at h
        simp only at h
        match h3 : PrimitiveWriter.int32 hd.major_version with
        | .error e2 =>
          rw [h3] at h
          simp only at h
          injection h with he
          subst he
          exact Or.inl (pw_int32_err h3)
        | .ok f3 =>
          rw [h3] at h
          simp only at h
          match h4 : PrimitiveWriter.int32 hd.minor_version with
          | .error e2 =>
            rw [h4] at h
            simp only at h
            injection h with he
            subst he
            exact Or.inl (pw_int32_err h4)
          | .ok f4 =>
            rw [h4] at h
            simp only at h
            exact Except.noConfusion h
  | .bos b =>
    unfold RecordWriter.record RecordTypeEnum.from_record RecordTypeEnum.serialize at h
    dsimp only [RecordTypeEnum.value] at h
    rw [byte_of_nat_ok (by norm_num : (6 : Nat) ≤ 0xFF)] at h
    dsimp only at h
    match h1 : PrimitiveWriter.int32 b.object_id with
    | .error e2 =>
      rw [h1] at h
      simp only at h
      injection h with he
      subst he
      exact Or.inl (pw_int32_err h1)
    | .ok f1 =>
      rw [h1] at h
      simp only at h
      match h2 : PrimitiveWriter.string b.value with
      | .error e2 =>
        rw [h2] at h
        simp only at h
        injection h with he
        subst he
        exact Or.inr (pw_string_err h2)
      | .ok f2 =>
        rw [h2] at h
        simp only at h
        exact Except.noConfusion h

theorem serializeFold_err : ∀ {records : List RecordItem} {w : RecordWriterState} {e : Err},
    serializeFold records w = .error e → e = .structError ∨ e = .unicodeEncodeError := by
  intro records
  induction records with
  | nil => intro w e h; exact Except.noConfusion h
  | cons r rest IH =>
    intro w e h
    unfold serializeFold at h
    match hr : RecordWriter.record r w with
    | .error e2 =>
      rw [hr] at h
      injection h with he
      subst he
      exact rw_record_err hr
    | .ok w1 =>
      rw [hr] at h
      exact IH h

theorem serializeFold_ok_of_wf : ∀ (records : List RecordItem) (w : RecordWriterState),
    (∀ r ∈ records, r.wf = true) → ∃ w', serializeFold records w = .ok w' := by
  intro records
  induction records with
  | nil => intro w _; exact ⟨w, rfl⟩
  | cons r rest IH =>
    intro w hwf
    obtain ⟨w1, hw1⟩ := record_ok_of_wf (hwf r (List.mem_cons_self r rest)) w
    obtain ⟨w', hw'⟩ := IH w1 (fun x hx => hwf x (List.mem_cons_of_mem r hx))
    refine ⟨w', ?_⟩
    unfold serializeFold
    rw [hw1]
    exact hw'

/-! ### The variable-length reader rejects five continuation bytes -/

theorem varlen_five_cont (b0 b1 b2 b3 b4 : Nat) (t : List Nat)
    (h0 : ¬ b0 &&& 0x80 = 0) (h1 : ¬ b1 &&& 0x80 = 0) (h2 : ¬ b2 &&& 0x80 = 0)
    (h3 : ¬ b3 &&& 0x80 = 0) (h4 : ¬ b4 &&& 0x80 = 0) :
    PrimitiveStream.readVarLenAux 0 0 0 (b0 :: b1 :: b2 :: b3 :: b4 :: t) =
      .error .varIntTooLong := by
  rw [PrimitiveStream.readVarLenAux.eq_def]
  dsimp only
  rw [if_neg h0, if_neg (by norm_num)]
  rw [PrimitiveStream.readVarLenAux.eq_def]
  dsimp only
  rw [if_neg h1, if_neg (by norm_num)]
  rw [PrimitiveStream.readVarLenAux.eq_def]
  dsimp only
  rw [if_neg h2, if_neg (by norm_num)]
  rw [PrimitiveStream.readVarLenAux.eq_def]
  dsimp only
  rw [if_neg h3, if_neg (by norm_num)]
  rw [PrimitiveStream.readVarLenAux.eq_def]
  dsimp only
  rw [if_neg h4, if_pos rfl]

/-! ### A string of 2^35 ASCII characters encodes but does not decode -/

theorem utf8EncodeStr_replicate_97 : ∀ n : Nat,
    utf8EncodeStr (List.replicate n 97) = .ok (List.replicate n 97) := by
  intro n
  induction n with
  | zero => rfl
  | succ n IH =>
    rw [List.replicate_succ]
    unfold utf8EncodeStr
    rw [(by decide : utf8EncodeChar 97 = .ok [97]), IH]
    dsimp only
    rfl

theorem pw_string_eq (val enc pre : List Nat)
    (h1 : utf8EncodeStr val = .ok enc)
    (h2 : PrimitiveWriter.writeLen7 enc.length = .ok pre) :
    PrimitiveWriter.string val = .ok (pre ++ enc) := by
  unfold PrimitiveWriter.string
  rw [h1]
  dsimp only
  rw [h2]

theorem serialize_bos_me (idv : Int) (val f1 sb : List Nat)
    (h1 : PrimitiveWriter.int32 idv = .ok f1)
    (h2 : PrimitiveWriter.string val = .ok sb) :
    serialize_records [RecordItem.bos ⟨idv, val⟩, RecordItem.me ⟨⟩] =
      .ok (6 :: (f1 ++ (sb ++ [11]))) := by
  unfold serialize_records serializeRecordsFull
  simp only [serializeFold]
  unfold RecordWriter.record RecordTypeEnum.from_record RecordTypeEnum.serialize
  dsimp only [RecordTypeEnum.value]
  rw [byte_of_nat_ok (by norm_num : (6 : Nat) ≤ 0xFF)]
  dsimp only
  rw [h1]
  dsimp only
  rw [h2]
  dsimp only
  rw [byte_of_nat_ok (by norm_num : (11 : Nat) ≤ 0xFF)]
  dsimp only
  simp [RecordWriter.set_object]

theorem parse_bos_varint_err (idv : Int) (f1 rest2 : List Nat)
    (h1 : ∀ t, PrimitiveStream.int32 (f1 ++ t) = .ok (idv, t))
    (h2 : PrimitiveStream.string rest2 = .error .varIntTooLong) :
    parse_bytes (6 :: (f1 ++ rest2)) = .error .varIntTooLong := by
  unfold parse_bytes parseBytesFull DNBinary.parse
  dsimp only
  simp only [DNBinary.parseLoopF]
  unfold RecordStream.record
  rw [byte_cons]
  dsimp only
  rw [ofValue_6]
  dsimp only
  unfold RecordTypeEnum.parse
  rw [RecordStream_int32_of [] (h1 rest2)]
  dsimp only
  rw [RecordStream_string_err [] h2]

theorem huge_serialize :
    serialize_records [RecordItem.bos ⟨1, List.replicate (2 ^ 35) 97⟩, RecordItem.me ⟨⟩] =
      .ok ([6, 1, 0, 0, 0, 128, 128, 128, 128, 128, 1] ++
        (List.replicate (2 ^ 35) 97 ++ [11])) := by
  have hs : PrimitiveWriter.string (List.replicate (2 ^ 35) 97) =
      .ok ([128, 128, 128, 128, 128, 1] ++ List.replicate (2 ^ 35) 97) := by
    refine pw_string_eq _ _ _ (utf8EncodeStr_replicate_97 _) ?_
    rw [List.length_replicate]
    decide
  have h := serialize_bos_me 1 (List.replicate (2 ^ 35) 97) [1, 0, 0, 0]
    ([128, 128, 128, 128, 128, 1] ++ List.replicate (2 ^ 35) 97) (by decide) hs
  rw [h]
  rfl

theorem huge_parse :
    parse_bytes ([6, 1, 0, 0, 0, 128, 128, 128, 128, 128, 1] ++
        (List.replicate (2 ^ 35) 97 ++ [11])) = .error .varIntTooLong := by
  have h2 : PrimitiveStream.string
      ([128, 128, 128, 128, 128, 1] ++ (List.replicate (2 ^ 35) 97 ++ [11])) =
      .error .varIntTooLong := by
    unfold PrimitiveStream.string
    rw [show ([128, 128, 128, 128, 128, 1] ++ (List.replicate (2 ^ 35) 97 ++ [11]) : List Nat) =
      128 :: 128 :: 128 :: 128 :: 128 :: 1 :: (List.replicate (2 ^ 35) 97 ++ [11]) from rfl]
    rw [varlen_five_cont 128 128 128 128 128 _
      (by decide) (by decide) (by decide) (by decide) (by decide)]
  have h1 : ∀ t, PrimitiveStream.int32 ([1, 0, 0, 0] ++ t) = .ok (1, t) :=
    (int32_rt (by decide : PrimitiveWriter.int32 1 = .ok [1, 0, 0, 0])).2.2
  have h := parse_bos_varint_err 1 [1, 0, 0, 0]
    ([128, 128, 128, 128, 128, 1] ++ (List.replicate (2 ^ 35) 97 ++ [11])) h1 h2
  rw [← h]
  congr 1

/-! ### The claims -/

/-- Claim C1, counterexample: the record sequence
`[BinaryObjectString{1, "a"*2^35}, MessageEnd{}]` satisfies every hypothesis
of the claim (it ends in its only `MessageEnd` and its integer fields are
signed-32-bit representable), its encoding succeeds, yet decoding the
produced bytes fails with `varIntTooLong` instead of returning the records:
the writer emits a 6-group length prefix that the 5-group reader rejects. -/
theorem c1_counterexample :
    (RecordItem.bos ⟨1, List.replicate (2 ^ 35) 97⟩).isMe = false ∧
    (RecordItem.bos ⟨1, List.replicate (2 ^ 35) 97⟩).intFieldsI32 = true ∧
    serialize_records [RecordItem.bos ⟨1, List.replicate (2 ^ 35) 97⟩, RecordItem.me ⟨⟩] =
      .ok ([6, 1, 0, 0, 0, 128, 128, 128, 128, 128, 1] ++
        (List.replicate (2 ^ 35) 97 ++ [11])) ∧
    parse_bytes ([6, 1, 0, 0, 0, 128, 128, 128, 128, 128, 1] ++
        (List.replicate (2 ^ 35) 97 ++ [11])) = .error .varIntTooLong ∧
    parse_bytes ([6, 1, 0, 0, 0, 128, 128, 128, 128, 128, 1] ++
        (List.replicate (2 ^ 35) 97 ++ [11])) ≠
      .ok [RecordItem.bos ⟨1, List.replicate (2 ^ 35) 97⟩, RecordItem.me ⟨⟩] := by
  refine ⟨rfl, rfl, huge_serialize, huge_parse, ?_⟩
  rw [huge_parse]
  intro hcontra
  exact Except.noConfusion hcontra

/-- Claim C1 (amended: additionally each string value's UTF-8 encoding must
be shorter than 2^35 bytes): for every record sequence that ends in exactly
one `MessageEnd`, contains no other `MessageEnd`, whose integer fields are
signed-32-bit representable and whose string values' UTF-8 encodings are
shorter than 2^35 bytes, decoding the bytes produced by a successful
encoding yields exactly the original records. -/
theorem c1_roundtrip (front : List RecordItem) (bs : List Nat)
    (hme : ∀ r ∈ front, r.isMe = false)
    (hints : ∀ r ∈ front, r.intFieldsI32 = true)
    (hlen : ∀ r ∈ front, r.strLenOK = true)
    (henc : serialize_records (front ++ [RecordItem.me ⟨⟩]) = .ok bs) :
    parse_bytes bs = .ok (front ++ [RecordItem.me ⟨⟩]) := by
  unfold serialize_records at henc
  match hser : serializeRecordsFull (front ++ [RecordItem.me ⟨⟩]) with
  | .error e => rw [hser] at henc; exact Except.noConfusion henc
  | .ok w' =>
    rw [hser] at henc
    injection henc with hbs
    subst hbs
    unfold serializeRecordsFull at hser
    obtain ⟨d, hout, hone, hobj, hrt⟩ := serializeFold_rt front _ _ hme hlen hser
    simp only [List.nil_append] at hout
    unfold parse_bytes parseBytesFull DNBinary.parse
    dsimp only
    have := hrt (w'.out.length + 1) [] [] [] (by rw [hout]; simp)
    rw [List.append_nil] at this
    rw [← hout] at this
    rw [this]
    dsimp only
    rw [List.nil_append]

/-- Claim C1 witness. -/
theorem c1_roundtrip_witness :
    (∀ r ∈ [RecordItem.bos ⟨1, [104]⟩], r.isMe = false) ∧
    (∀ r ∈ [RecordItem.bos ⟨1, [104]⟩], r.intFieldsI32 = true) ∧
    (∀ r ∈ [RecordItem.bos ⟨1, [104]⟩], r.strLenOK = true) ∧
    serialize_records ([RecordItem.bos ⟨1, [104]⟩] ++ [RecordItem.me ⟨⟩]) =
      .ok [6, 1, 0, 0, 0, 1, 104, 11] ∧
    parse_bytes [6, 1, 0, 0, 0, 1, 104, 11] =
      .ok ([RecordItem.bos ⟨1, [104]⟩] ++ [RecordItem.me ⟨⟩]) :=
  ⟨by decide, by decide, by decide, by decide,
   c1_roundtrip [RecordItem.bos ⟨1, [104]⟩] [6, 1, 0, 0, 0, 1, 104, 11]
     (by decide) (by decide) (by decide) (by decide)⟩

/-- Claim C2: for every length `L < 2^28` the 7-bit-group encoder succeeds,
the reader decodes its output back to `L` consuming it entirely, and the
encoding is canonical: it has the minimum number of 7-bit groups (its group
count is at most `n` exactly when `L < 128^n`). -/
theorem c2_varint_canonical (L : Nat) (hL : L < 2 ^ 28) :
    ∃ bytes, PrimitiveWriter.writeLen7 L = .ok bytes ∧
      PrimitiveStream.readVarLenAux 0 0 0 bytes = .ok (L, []) ∧
      1 ≤ bytes.length ∧
      ∀ n, 1 ≤ n → (bytes.length ≤ n ↔ L < 128 ^ n) := by
  obtain ⟨bytes, hok, hone, hmin, _, hrt⟩ := writeLen7_spec L
  refine ⟨bytes, hok, ?_, hone, hmin⟩
  have hfit : bytes.length ≤ 5 := (hmin 5 (by norm_num)).mpr (by norm_num; omega)
  have h := hrt 0 0 [] (by omega)
  simp only [Nat.mul_zero, Nat.pow_zero, Nat.mul_one, Nat.zero_add,
    List.append_nil] at h
  exact h

/-- Claim C2 witness. -/
theorem c2_varint_canonical_witness :
    ∃ bytes, PrimitiveWriter.writeLen7 300 = .ok bytes ∧
      PrimitiveStream.readVarLenAux 0 0 0 bytes = .ok (300, []) ∧
      1 ≤ bytes.length ∧
      ∀ n, 1 ≤ n → (bytes.length ≤ n ↔ 300 < 128 ^ n) :=
  c2_varint_canonical 300 (by norm_num)

/-- Claim C3, counterexample: `[11, 11]` decodes successfully (the decoder
stops at the first `MessageEnd` and ignores the trailing byte), and its
strict truncation at offset 1 also decodes successfully to the same records
instead of failing with the end-of-stream error. -/
theorem c3_counterexample :
    parse_bytes [11, 11] = .ok [RecordItem.me ⟨⟩] ∧
    List.take 1 [11, 11] = [11] ∧ (1 : Nat) < List.length [11, 11] ∧
    parse_bytes (List.take 1 [11, 11]) = .ok [RecordItem.me ⟨⟩] ∧
    parse_bytes (List.take 1 [11, 11]) ≠ .error .eof := by
  decide

/-- Claim C3 (amended: the valid stream must be consumed in full, i.e. the
decoder's final state has no unread input — equivalently the stream is a
record sequence followed by exactly one `MessageEnd` with nothing after
it): truncating such a stream at any offset strictly before its end makes
decoding fail with the end-of-stream error. -/
theorem c3_truncation (bs : List Nat) (recs : List RecordItem)
    (os : List (Int × RecordItem))
    (h : parseBytesFull bs = .ok (recs, { input := [], objects := os }))
    (k : Nat) (hk : k < bs.length) :
    parse_bytes (List.take k bs) = .error .eof := by
  unfold parseBytesFull DNBinary.parse at h
  dsimp only at h
  have htr := parseLoopF_trunc bs.length bs [] [] recs
    { input := [], objects := os } (bs.length + 1) (le_refl _) (by omega) h rfl
    k hk ((List.take k bs).length + 1) [] []
    (by simp; omega)
  unfold parse_bytes parseBytesFull DNBinary.parse
  dsimp only
  rw [htr]

/-- Claim C3 witness. -/
theorem c3_truncation_witness :
    parseBytesFull [11] = .ok ([RecordItem.me ⟨⟩], { input := [], objects := [] }) ∧
    (0 : Nat) < List.length [11] ∧
    parse_bytes (List.take 0 [11]) = .error .eof :=
  ⟨by decide, by decide,
   c3_truncation [11] [RecordItem.me ⟨⟩] [] (by decide) 0 (by decide)⟩

/-- Claim C4: decoding any byte stream whose first byte is not one of the
tags 0, 6, 11 fails with `unknownRecordType`; no records are returned. -/
theorem c4_unknown_tag (b : Nat) (t : List Nat)
    (h0 : b ≠ 0) (h6 : b ≠ 6) (h11 : b ≠ 11) :
    parse_bytes (b :: t) = .error .unknownRecordType := by
  unfold parse_bytes parseBytesFull DNBinary.parse
  dsimp only
  simp only [DNBinary.parseLoopF]
  unfold RecordStream.record
  rw [byte_cons]
  dsimp only
  unfold RecordTypeEnum.ofValue
  rw [if_neg h0, if_neg h6, if_neg h11]

/-- Claim C4 witness. -/
theorem c4_unknown_tag_witness :
    parse_bytes [1] = .error .unknownRecordType :=
  c4_unknown_tag 1 [] (by decide) (by decide) (by decide)

/-- Claim C5, counterexample: for the record sequence
`[MessageEnd{}, BinaryObjectString{5, ""}]` the encoder's reference table
after encoding maps id 5, while the decoder of the produced bytes stops at
the leading `MessageEnd` and ends with an empty table: the two table states
differ, refuting the claim's universal quantification over record
sequences. -/
theorem c5_counterexample :
    serializeRecordsFull [RecordItem.me ⟨⟩, RecordItem.bos ⟨5, []⟩] =
      .ok { out := [11, 6, 5, 0, 0, 0, 0],
            objects := [(5, RecordItem.bos ⟨5, []⟩)] } ∧
    parseBytesFull [11, 6, 5, 0, 0, 0, 0] =
      .ok ([RecordItem.me ⟨⟩], { input := [6, 5, 0, 0, 0, 0], objects := [] }) ∧
    ([(5, RecordItem.bos ⟨5, []⟩)] : List (Int × RecordItem)) ≠ [] := by
  decide

/-- Claim C5 (amended: restricted to record sequences whose last record is
their only `MessageEnd`, the shape decoding can reproduce, with string
values short enough to round-trip): after encoding such a sequence, decoding
the produced bytes succeeds, returns the same records, and leaves the
decoder's reference table in exactly the encoder's table state. -/
theorem c5_table_symmetry (front : List RecordItem) (ws : RecordWriterState)
    (hme : ∀ r ∈ front, r.isMe = false)
    (hlen : ∀ r ∈ front, r.strLenOK = true)
    (henc : serializeRecordsFull (front ++ [RecordItem.me ⟨⟩]) = .ok ws) :
    parseBytesFull ws.out =
      .ok (front ++ [RecordItem.me ⟨⟩], { input := [], objects := ws.objects }) := by
  unfold serializeRecordsFull at henc
  obtain ⟨d, hout, hone, hobj, hrt⟩ := serializeFold_rt front _ _ hme hlen henc
  simp only [List.nil_append] at hout
  unfold parseBytesFull DNBinary.parse
  dsimp only
  have := hrt (ws.out.length + 1) [] [] [] (by rw [hout]; simp)
  rw [List.append_nil] at this
  rw [← hout] at this
  rw [this, List.nil_append]
  have hobj2 : foldObjUpd (front ++ [RecordItem.me ⟨⟩]) [] = ws.objects := by
    rw [hobj]
  rw [hobj2]

/-- Claim C5 witness, including the claim's id-5 instance: the encoder and
decoder tables agree and both map id 5 to the encoded string record. -/
theorem c5_table_symmetry_witness :
    (∀ r ∈ [RecordItem.bos ⟨5, [120]⟩], r.isMe = false) ∧
    (∀ r ∈ [RecordItem.bos ⟨5, [120]⟩], r.strLenOK = true) ∧
    serializeRecordsFull ([RecordItem.bos ⟨5, [120]⟩] ++ [RecordItem.me ⟨⟩]) =
      .ok { out := [6, 5, 0, 0, 0, 1, 120, 11],
            objects := [(5, RecordItem.bos ⟨5, [120]⟩)] } ∧
    parseBytesFull [6, 5, 0, 0, 0, 1, 120, 11] =
      .ok ([RecordItem.bos ⟨5, [120]⟩] ++ [RecordItem.me ⟨⟩],
        { input := [], objects := [(5, RecordItem.bos ⟨5, [120]⟩)] }) ∧
    dictGet [(5, RecordItem.bos ⟨5, [120]⟩)] 5 = some (RecordItem.bos ⟨5, [120]⟩) :=
  ⟨by decide, by decide, by decide,
   c5_table_symmetry [RecordItem.bos ⟨5, [120]⟩]
     { out := [6, 5, 0, 0, 0, 1, 120, 11],
       objects := [(5, RecordItem.bos ⟨5, [120]⟩)] }
     (by decide) (by decide) (by decide),
   by decide⟩

/-- Claim C6: encoding `[BinaryObjectString{1, "hi"}, MessageEnd{}]`
produces exactly the bytes `06 01 00 00 00 02 68 69 0B`, decoding those
bytes reproduces both records, and the decoder's reference table maps 1 to
`BinaryObjectString{1, "hi"}` ("hi" being code points `[104, 105]`). -/
theorem c6_concrete_hi :
    serialize_records [RecordItem.bos ⟨1, [104, 105]⟩, RecordItem.me ⟨⟩] =
      .ok [0x06, 0x01, 0x00, 0x00, 0x00, 0x02, 0x68, 0x69, 0x0B] ∧
    parse_bytes [0x06, 0x01, 0x00, 0x00, 0x00, 0x02, 0x68, 0x69, 0x0B] =
      .ok [RecordItem.bos ⟨1, [104, 105]⟩, RecordItem.me ⟨⟩] ∧
    parseBytesFull [0x06, 0x01, 0x00, 0x00, 0x00, 0x02, 0x68, 0x69, 0x0B] =
      .ok ([RecordItem.bos ⟨1, [104, 105]⟩, RecordItem.me ⟨⟩],
        { input := [], objects := [(1, RecordItem.bos ⟨1, [104, 105]⟩)] }) ∧
    dictGet [(1, RecordItem.bos ⟨1, [104, 105]⟩)] 1 =
      some (RecordItem.bos ⟨1, [104, 105]⟩) := by
  decide

/-- Claim C7: the variable-length reader consumes at most 5 bytes (and at
least 1) whenever it succeeds, and if the first five bytes it sees all have
the continuation bit 0x80 set it fails with `varIntTooLong`. -/
theorem c7_varint_bound :
    (∀ input : List Nat, ∀ L : Nat, ∀ rest : List Nat,
      PrimitiveStream.readVarLenAux 0 0 0 input = .ok (L, rest) →
      ∃ c, input = c ++ rest ∧ 1 ≤ c.length ∧ c.length ≤ 5) ∧
    (∀ b0 b1 b2 b3 b4 : Nat, ∀ t : List Nat,
      ¬ b0 &&& 0x80 = 0 → ¬ b1 &&& 0x80 = 0 → ¬ b2 &&& 0x80 = 0 →
      ¬ b3 &&& 0x80 = 0 → ¬ b4 &&& 0x80 = 0 →
      PrimitiveStream.readVarLenAux 0 0 0 (b0 :: b1 :: b2 :: b3 :: b4 :: t) =
        .error .varIntTooLong) := by
  constructor
  · intro input L rest h
    obtain ⟨c, hsp, hone, hfit, _⟩ := readVarLenAux_frame input 0 0 0 (by norm_num) h
    exact ⟨c, hsp, hone, by omega⟩
  · intro b0 b1 b2 b3 b4 t h0 h1 h2 h3 h4
    exact varlen_five_cont b0 b1 b2 b3 b4 t h0 h1 h2 h3 h4

/-- Claim C7 witness. -/
theorem c7_varint_bound_witness :
    (∃ c, ([5] : List Nat) = c ++ [] ∧ 1 ≤ c.length ∧ c.length ≤ 5) ∧
    PrimitiveStream.readVarLenAux 0 0 0 [128, 128, 128, 128, 128] =
      .error .varIntTooLong :=
  ⟨c7_varint_bound.1 [5] 5 [] (by decide),
   c7_varint_bound.2 128 128 128 128 128 []
     (by decide) (by decide) (by decide) (by decide) (by decide)⟩

/-- Claim C8: for any record sequence containing two `BinaryObjectString`
records with the same object id (the second one not followed by another
write to that id, and the sequence terminated by its only `MessageEnd`),
both encoding and decoding succeed with no conflict signalled, and
afterwards both the encoder's and the decoder's reference tables map that
id to the later of the two records (last-write-wins). -/
theorem c8_last_write_wins (front back : List RecordItem) (i : Int)
    (v1 v2 : List Nat)
    (hv1 : RecordItem.bos ⟨i, v1⟩ ∈ front)
    (hme : ∀ r ∈ front ++ [RecordItem.bos ⟨i, v2⟩] ++ back, r.isMe = false)
    (hwf : ∀ r ∈ front ++ [RecordItem.bos ⟨i, v2⟩] ++ back, r.wf = true)
    (hback : ∀ r ∈ back, writesId i r = false) :
    ∃ ws, serializeRecordsFull
        ((front ++ [RecordItem.bos ⟨i, v2⟩] ++ back) ++ [RecordItem.me ⟨⟩]) = .ok ws ∧
      parseBytesFull ws.out =
        .ok ((front ++ [RecordItem.bos ⟨i, v2⟩] ++ back) ++ [RecordItem.me ⟨⟩],
          { input := [], objects := ws.objects }) ∧
      dictGet ws.objects i = some (RecordItem.bos ⟨i, v2⟩) := by
  have hwf2 : ∀ r ∈ (front ++ [RecordItem.bos ⟨i, v2⟩] ++ back) ++ [RecordItem.me ⟨⟩],
      r.wf = true := by
    intro r hr
    rcases List.mem_append.mp hr with hr | hr
    · exact hwf r hr
    · simp at hr
      subst hr
      rfl
  obtain ⟨ws, hws⟩ := serializeFold_ok_of_wf _ { out := [], objects := [] } hwf2
  have hlen : ∀ r ∈ front ++ [RecordItem.bos ⟨i, v2⟩] ++ back, r.strLenOK = true := by
    intro r hr
    have := hwf r hr
    simp only [RecordItem.wf, Bool.and_eq_true] at this
    exact this.2
  obtain ⟨d, hout, hone, hobj, hrt⟩ := serializeFold_rt _ _ _ hme hlen hws
  simp only [List.nil_append] at hout
  refine ⟨ws, hws, ?_, ?_⟩
  · unfold parseBytesFull DNBinary.parse
    dsimp only
    have := hrt (ws.out.length + 1) [] [] [] (by rw [hout]; simp)
    rw [List.append_nil] at this
    rw [← hout] at this
    rw [this, List.nil_append]
    have hobj2 : foldObjUpd ((front ++ [RecordItem.bos ⟨i, v2⟩] ++ back) ++
        [RecordItem.me ⟨⟩]) [] = ws.objects := by rw [hobj]
    rw [hobj2]
  · rw [hobj]
    dsimp only
    rw [foldObjUpd_append, foldObjUpd_append, foldObjUpd_append]
    have hme2 : foldObjUpd [RecordItem.me ⟨⟩]
        (foldObjUpd back (foldObjUpd [RecordItem.bos ⟨i, v2⟩] (foldObjUpd front []))) =
        foldObjUpd back (foldObjUpd [RecordItem.bos ⟨i, v2⟩] (foldObjUpd front [])) := rfl
    rw [hme2]
    rw [foldObjUpd_no_write back _ hback]
    have hset : foldObjUpd [RecordItem.bos ⟨i, v2⟩] (foldObjUpd front []) =
        dictSet (foldObjUpd front []) i (RecordItem.bos ⟨i, v2⟩) := rfl
    rw [hset]
    exact dictGet_set_self _ i _

/-- Claim C8 witness: two writes to id 5, the later one with value "b". -/
theorem c8_last_write_wins_witness :
    ∃ ws, serializeRecordsFull
        (([RecordItem.bos ⟨5, [97]⟩] ++ [RecordItem.bos ⟨5, [98]⟩] ++ []) ++
          [RecordItem.me ⟨⟩]) = .ok ws ∧
      parseBytesFull ws.out =
        .ok (([RecordItem.bos ⟨5, [97]⟩] ++ [RecordItem.bos ⟨5, [98]⟩] ++ []) ++
          [RecordItem.me ⟨⟩], { input := [], objects := ws.objects }) ∧
      dictGet ws.objects 5 = some (RecordItem.bos ⟨5, [98]⟩) :=
  c8_last_write_wins [RecordItem.bos ⟨5, [97]⟩] [] 5 [97] [98]
    (by decide) (by decide) (by decide) (by decide)

/-- Claim C9: the primitive byte writer fails with `valueOutOfRange` exactly
when its argument lies outside `[0, 255]`, and no encoding of any record
sequence can ever fail with `valueOutOfRange` (the encoder's own byte-writes
are always in range). -/
theorem c9_write_byte_range :
    (∀ v : Int, PrimitiveWriter.byte v = .error .valueOutOfRange ↔
      (v < 0 ∨ 0xFF < v)) ∧
    (∀ records : List RecordItem,
      serialize_records records ≠ .error .valueOutOfRange) := by
  constructor
  · intro v
    unfold PrimitiveWriter.byte
    split
    case isTrue h =>
      constructor
      · intro hcontra
        exact Except.noConfusion hcontra
      · intro hcontra
        omega
    case isFalse h =>
      constructor
      · intro _
        omega
      · intro _
        rfl
  · intro records hcontra
    unfold serialize_records at hcontra
    match hs : serializeRecordsFull records with
    | .ok w => rw [hs] at hcontra; exact Except.noConfusion hcontra
    | .error e =>
      rw [hs] at hcontra
      injection hcontra with he
      subst he
      rcases serializeFold_err hs with he | he <;> exact Err.noConfusion he

/-- Claim C9 witness. -/
theorem c9_write_byte_range_witness :
    PrimitiveWriter.byte 300 = .error .valueOutOfRange ∧
    serialize_records [] ≠ .error .valueOutOfRange :=
  ⟨(c9_write_byte_range.1 300).mpr (by norm_num),
   c9_write_byte_range.2 []⟩

/-- Claim C10: decoding always terminates — every successful record read
consumes at least one byte (the tag byte), so the parse loop, run with one
unit of fuel per input byte plus one, never exhausts its fuel, and a
successful decode returns at most as many records as there are input
bytes. -/
theorem c10_termination :
    (∀ (s : RecordStreamState) (r : RecordItem) (s' : RecordStreamState),
      RecordStream.record s = .ok (r, s') → s'.input.length < s.input.length) ∧
    (∀ (bs : List Nat) (os : List (Int × RecordItem)) (acc : List RecordItem),
      DNBinary.parseLoopF (bs.length + 1) { input := bs, objects := os } acc ≠
        .error .outOfFuel) ∧
    (∀ (bs : List Nat) (recs : List RecordItem),
      parse_bytes bs = .ok recs → recs.length ≤ bs.length) := by
  refine ⟨fun s r s' h => record_consumes h, ?_, ?_⟩
  · intro bs os acc
    exact (parseLoopF_complete (bs.length + 1) { input := bs, objects := os } acc
      (by simp)).1
  · intro bs recs h
    unfold parse_bytes parseBytesFull DNBinary.parse at h
    dsimp only at h
    match hp : DNBinary.parseLoopF (bs.length + 1) { input := bs, objects := [] } [] with
    | .error e => rw [hp] at h; exact Except.noConfusion h
    | .ok (recs2, s') =>
      rw [hp] at h
      injection h with he
      subst he
      have := (parseLoopF_complete (bs.length + 1) { input := bs, objects := [] } []
        (by simp)).2 recs2 s' hp
      simp at this
      omega

/-- Claim C10 witness. -/
theorem c10_termination_witness :
    (({ input := [], objects := [] } : RecordStreamState).input.length <
      ({ input := [11], objects := [] } : RecordStreamState).input.length) ∧
    (DNBinary.parseLoopF (([11] : List Nat).length + 1)
      { input := [11], objects := [] } [] ≠ .error .outOfFuel) ∧
    [RecordItem.me ⟨⟩].length ≤ ([11] : List Nat).length :=
  ⟨c10_termination.1 { input := [11], objects := [] } (.me ⟨⟩)
      { input := [], objects := [] } (by decide),
   c10_termination.2.1 [11] [] [],
   c10_termination.2.2 [11] [.me ⟨⟩] (by decide)⟩
